import Mathlib

/-!
Shallow embedding of the incremental-analysis core of an IDE-oriented
analyzer (crates ra_analysis and ra_hir).  Pure functions of the source
are translated to Lean functions; the salsa input layer is explicit state
passing on a record of input slots.  Fallible code returns Except values;
a Rust panic is an explicit PanicOr constructor.
-/

namespace RA

/-- File identities are opaque 32-bit integers allocated by the caller;
we model them as naturals. -/
abbrev FileId := Nat

abbrev SourceRootId := Nat

abbrev CrateId := Nat

abbrev RelPath := String

/-- Cancellation signal propagated by queries (crate ra_db). -/
inductive Canceled
  | canceled
  deriving DecidableEq, Repr

/-- Cancelable values: Ok or the cancellation signal. -/
abbrev Cancelable (α : Type) := Except Canceled α

instance {ε α : Type} [DecidableEq ε] [DecidableEq α] : DecidableEq (Except ε α)
  | Except.error e1, Except.error e2 =>
    if h : e1 = e2 then isTrue (by rw [h]) else isFalse (fun hh => h (Except.error.inj hh))
  | Except.error _, Except.ok _ => isFalse (fun hh => Except.noConfusion hh)
  | Except.ok _, Except.error _ => isFalse (fun hh => Except.noConfusion hh)
  | Except.ok a1, Except.ok a2 =>
    if h : a1 = a2 then isTrue (by rw [h]) else isFalse (fun hh => h (Except.ok.inj hh))

/-- Result of Rust code that may panic: a panic carries its message.
Used for assert!, expect and unwrap in the embedded code. -/
inductive PanicOr (α : Type)
  | panicked (msg : String)
  | ok (a : α)
  deriving DecidableEq, Repr

/-- Text ranges of syntax nodes, in code units. -/
structure TextRange where
  start : Nat
  stop : Nat
  deriving DecidableEq, Repr

/-- Syntax kinds relevant to the embedded code (ra_syntax::SyntaxKind). -/
inductive SyntaxKind
  | FN_DEF
  | STRUCT_DEF
  | ENUM_DEF
  | TRAIT_DEF
  | TYPE_DEF
  | MODULE
  | NAME
  | CONST_DEF
  | STATIC_DEF
  deriving DecidableEq, Repr

/-- File symbols produced by ra_editor::file_symbols (spec section 3). -/
structure FileSymbol where
  name : String
  node_range : TextRange
  kind : SyntaxKind
  deriving DecidableEq, Repr

/-- Position of a cursor inside a file. -/
structure FilePosition where
  file_id : FileId
  offset : Nat
  deriving DecidableEq, Repr

/-!
## resolve_callable: current-parameter computation (imp.rs lines 447-481)

The surrounding plumbing (index resolution of the callee, signature
retrieval) feeds the loop body with: the number of declared parameters of
the resolved FnSignatureInfo, whether the fn has a self parameter, and the
call expression's argument list.  We embed the argument list as its start
offset plus its text, exactly the data the code reads from the syntax
node.
-/

/-- The argument-list syntax node of the call expression: its range start
and its text (arg_list.syntax().range().start() and
arg_list.syntax().text()). -/
structure ArgListNode where
  start : Nat
  text : List Char
  deriving DecidableEq, Repr

/-- Number of commas in the argument-list text sliced from the start of
the argument list to the cursor offset:
arg_list.syntax().text().slice(range_search).to_string().matches(",").count()
with range_search = TextRange::from_to(start, position.offset). -/
def commasInRange (arg_list : ArgListNode) (offset : Nat) : Nat :=
  ((arg_list.text.take (offset - arg_list.start)).filter (fun c => c = ',')).length

/-- The current_parameter computation of AnalysisImpl::resolve_callable
(imp.rs lines 447-481).  num_params = descriptor.params.len(); has_self =
fn_def.param_list().and_then(self_param).is_some(); arg_list =
calling_node.arg_list(). -/
def current_parameter (num_params : Nat) (has_self : Bool)
    (arg_list : Option ArgListNode) (offset : Nat) : Option Nat :=
  if num_params = 1 then
    if !has_self then some 0 else none
  else if num_params > 1 then
    match arg_list with
    | some al =>
      let commas := commasInRange al offset
      some (if has_self then commas + 1 else commas)
    | none => none
  else none

/-!
## Symbol index (symbol_index.rs)
-/

/-- A source file as seen by the external editor helpers: ra_editor is an
external collaborator (spec section 6) whose file_symbols is a pure
function of the syntax tree, so we embed a file by the symbol list that
function yields. -/
structure SourceFileNode where
  symbols : List FileSymbol
  deriving DecidableEq, Repr

/-- ra_editor::file_symbols, pure over the (embedded) syntax tree. -/
def file_symbols_of (file : SourceFileNode) : List FileSymbol :=
  file.symbols

/-- Lexicographic strict order on character lists by code point; UTF-8
preserves code-point order, so this is exactly the byte order Rust
String::cmp uses. -/
def strLt : List Char → List Char → Bool
  | [], [] => false
  | [], _ :: _ => true
  | _ :: _, [] => false
  | a :: as, b :: bs => if a < b then true else if b < a then false else strLt as bs

/-- The matching non-strict order. -/
def strLe (a b : List Char) : Bool := !(strLt b a)

/-- str::to_lowercase, embedding the string by its character list. -/
def lowercase (s : String) : List Char := s.data.map Char.toLower

/-- The key a symbol is indexed under: symbol.name.as_str().to_lowercase(). -/
def lowerName (e : FileId × FileSymbol) : List Char :=
  lowercase e.2.name

/-- Vec::dedup_by(|s1, s2| s1.0 == s2.0): drop each element whose key
equals the key of the last retained element, so the first of every run of
equal keys wins.  The parameter k is the key of the last retained
element. -/
def dedupTail (k : List Char) :
    List (List Char × (FileId × FileSymbol)) → List (List Char × (FileId × FileSymbol))
  | [] => []
  | b :: rest => if b.1 = k then dedupTail k rest else b :: dedupTail b.1 rest

/-- Vec::dedup_by over the whole vector: the first element is always
retained. -/
def dedupByKey : List (List Char × (FileId × FileSymbol)) → List (List Char × (FileId × FileSymbol))
  | [] => []
  | a :: rest => a :: dedupTail a.1 rest

/-- The flat list of (lowercased name, (file_id, symbol)) pairs gathered
by SymbolIndex::for_files before sorting. -/
def rawEntries (files : List (FileId × SourceFileNode)) :
    List (List Char × (FileId × FileSymbol)) :=
  files.flatMap (fun ff => (file_symbols_of ff.2).map (fun s => (lowercase s.name, (ff.1, s))))

/-- The comparison symbols.par_sort_by(|s1, s2| s1.0.cmp(&s2.0)) sorts
by: the lowercased-name keys only. -/
def entryLe (x y : List Char × (FileId × FileSymbol)) : Prop :=
  strLe x.1 y.1 = true

instance : DecidableRel entryLe := fun x y => by unfold entryLe; infer_instance

/-- symbols.par_sort_by(|s1, s2| s1.0.cmp(&s2.0)): a stable sort by the
key; a stable sort is determined by its comparator, and we embed it as
stable insertion sort. -/
def sortedEntries (files : List (FileId × SourceFileNode)) :
    List (List Char × (FileId × FileSymbol)) :=
  List.insertionSort entryLe (rawEntries files)

/-- A symbol index: the sorted symbol vector plus the finite-state
transducer from lowercased name to position in that vector.  We embed the
fst::Map by its association list in key order. -/
structure SymbolIndex where
  symbols : List (FileId × FileSymbol)
  map : List (List Char × Nat)
  deriving DecidableEq, Repr

/-- SymbolIndex::for_files: flatten, stable-sort by lowercased name,
collapse adjacent duplicate keys keeping the first, then unzip into the
symbol vector and build the map from the names zipped with 0u64... -/
def SymbolIndex.for_files (files : List (FileId × SourceFileNode)) : SymbolIndex :=
  let deduped := dedupByKey (sortedEntries files)
  { symbols := deduped.map (fun kv => kv.2),
    map := (deduped.map (fun kv => kv.1)).enum.map (fun ni => (ni.2, ni.1)) }

/-- SymbolIndex::for_file: the singleton case of for_files. -/
def SymbolIndex.for_file (file_id : FileId) (file : SourceFileNode) : SymbolIndex :=
  SymbolIndex.for_files [(file_id, file)]

/-- A search query (crate-root Query struct, fields as read by
Query::search). -/
structure Query where
  query : String
  lowercased : String
  only_types : Bool
  libs : Bool
  exact : Bool
  limit : Nat
  deriving DecidableEq, Repr

/-- is_type (symbol_index.rs lines 118-123). -/
def is_type (kind : SyntaxKind) : Bool :=
  match kind with
  | SyntaxKind.STRUCT_DEF | SyntaxKind.ENUM_DEF | SyntaxKind.TRAIT_DEF | SyntaxKind.TYPE_DEF => true
  | _ => false

/-- Subsequence test: fst::automaton::Subsequence matches every key that
contains the needle as a (not necessarily contiguous) subsequence. -/
def isSubseq : List Char → List Char → Bool
  | [], _ => true
  | _ :: _, [] => false
  | n :: ns, h :: hs => if n = h then isSubseq ns hs else isSubseq (n :: ns) hs

/-- Adjacent-duplicate removal on a sorted key list; the fst union stream
yields each distinct key exactly once. -/
def dedupKeys : List (List Char) → List (List Char)
  | [] => []
  | [a] => [a]
  | a :: b :: rest => if a = b then dedupKeys (b :: rest) else a :: dedupKeys (b :: rest)

/-- The keys of one index accepted by the subsequence automaton over the
lowercased needle, in map (key) order. -/
def matchedKeys (needle : String) (idx : SymbolIndex) : List (List Char) :=
  (idx.map.filter (fun kv => isSubseq needle.toList kv.1)).map (fun kv => kv.1)

/-- The key order of the merged fst streams. -/
def keyLe (a b : List Char) : Prop :=
  strLe a b = true

instance : DecidableRel keyLe := fun a b => by unfold keyLe; infer_instance

/-- The distinct keys of the fst union stream over all indices, in
lexicographic order: each matched key of any index, visited once. -/
def unionKeys (needle : String) (indices : List SymbolIndex) : List (List Char) :=
  dedupKeys (List.insertionSort keyLe (indices.flatMap (matchedKeys needle)))

/-- The IndexedValue list the union stream attaches to one key: for each
input stream (in the order the indices were added) holding the key, the
pair of stream index and transducer value. -/
def indexedValues (indices : List SymbolIndex) (key : List Char) : List (Nat × Nat) :=
  indices.enum.flatMap
    (fun p => (p.2.map.filter (fun kv => kv.1 = key)).map (fun kv => (p.1, kv.2)))

/-- The body of the inner for-loop of Query::search: fetch
indices[indexed_value.index].symbols[indexed_value.value] and apply the
only_types and exact filters (continue drops the candidate); array
indexing cannot go out of bounds on indices produced by for_files, and we
embed the fetch with get?. -/
def acceptSymbol (q : Query) (indices : List SymbolIndex) (iv : Nat × Nat) :
    Option (FileId × FileSymbol) :=
  match indices.get? iv.1 with
  | none => none
  | some file_symbols =>
    match file_symbols.symbols.get? iv.2 with
    | none => none
    | some fs =>
      if q.only_types && !is_type fs.2.kind then none
      else if q.exact && !(fs.2.name = q.query) then none
      else some fs

/-- The results one stream step (one key) contributes: its indexed
values, filtered and fetched by the inner for-loop. -/
def acceptedFor (q : Query) (indices : List SymbolIndex) (key : List Char) :
    List (FileId × FileSymbol) :=
  (indexedValues indices key).filterMap (acceptSymbol q indices)

/-- The while-let loop of Query::search: before each stream step the
accumulated result length is checked against the limit; the step then
pushes every accepted value of the key. -/
def searchLoop (q : Query) (indices : List SymbolIndex) :
    List (List Char) → List (FileId × FileSymbol) → List (FileId × FileSymbol)
  | [], res => res
  | key :: rest, res =>
    if res.length ≥ q.limit then res
    else searchLoop q indices rest (res ++ acceptedFor q indices key)

/-- Query::search (symbol_index.rs lines 88-115). -/
def Query.search (q : Query) (indices : List SymbolIndex) : List (FileId × FileSymbol) :=
  searchLoop q indices (unionKeys q.lowercased indices) []

/-- All accepted results of the union stream, with no limit applied. -/
def allAccepted (q : Query) (indices : List SymbolIndex) (keys : List (List Char)) :
    List (FileId × FileSymbol) :=
  keys.flatMap (acceptedFor q indices)

/-!
## Input layer and apply_change (imp.rs lines 42-112, db.rs)

The salsa query engine is an external library; spec section 4.1 fixes the
behaviour we depend on: every input set(key, value) advances the single
global revision by one, also when the value is unchanged, and
set_constant behaves like set for the write itself.  The state below
holds exactly the input slots RootDatabase declares in db.rs, and each
setter is one such write.
-/

/-- A source root: the mapping from file-relative path to FileId (the
is_library flag lives in the root lists, not here). -/
structure SourceRoot where
  files : List (RelPath × FileId)
  deriving DecidableEq, Repr

/-- BTreeMap::insert on the path map (replacing any previous binding). -/
def SourceRoot.insertFile (sr : SourceRoot) (path : RelPath) (file_id : FileId) : SourceRoot :=
  { files := (sr.files.filter (fun pf => pf.1 ≠ path)) ++ [(path, file_id)] }

/-- BTreeMap::remove on the path map. -/
def SourceRoot.removeFile (sr : SourceRoot) (path : RelPath) : SourceRoot :=
  { files := sr.files.filter (fun pf => pf.1 ≠ path) }

/-- The crate graph input; its structure is irrelevant to the claims. -/
structure CrateGraph where
  crates : List (CrateId × FileId)
  deriving DecidableEq, Repr

/-- The input slots of RootDatabase (db.rs database_storage) plus the
global revision counter maintained by the engine. -/
structure RootDatabase where
  revision : Nat
  fileText : FileId → Option String
  fileRelativePath : FileId → Option RelPath
  fileSourceRoot : FileId → Option SourceRootId
  sourceRoot : SourceRootId → Option SourceRoot
  localRoots : List SourceRootId
  libraryRoots : List SourceRootId
  librarySymbols : SourceRootId → Option SymbolIndex
  crateGraph : Option CrateGraph

/-- query_mut(FileTextQuery).set: one input write, one revision bump. -/
def setFileText (db : RootDatabase) (file_id : FileId) (text : String) : RootDatabase :=
  { db with
    revision := db.revision + 1,
    fileText := fun f => if f = file_id then some text else db.fileText f }

/-- query_mut(FileRelativePathQuery).set. -/
def setFileRelativePath (db : RootDatabase) (file_id : FileId) (path : RelPath) : RootDatabase :=
  { db with
    revision := db.revision + 1,
    fileRelativePath := fun f => if f = file_id then some path else db.fileRelativePath f }

/-- query_mut(FileSourceRootQuery).set. -/
def setFileSourceRoot (db : RootDatabase) (file_id : FileId) (root_id : SourceRootId) : RootDatabase :=
  { db with
    revision := db.revision + 1,
    fileSourceRoot := fun f => if f = file_id then some root_id else db.fileSourceRoot f }

/-- query_mut(SourceRootQuery).set. -/
def setSourceRoot (db : RootDatabase) (root_id : SourceRootId) (sr : SourceRoot) : RootDatabase :=
  { db with
    revision := db.revision + 1,
    sourceRoot := fun r => if r = root_id then some sr else db.sourceRoot r }

/-- query_mut(LocalRootsQuery).set. -/
def setLocalRoots (db : RootDatabase) (roots : List SourceRootId) : RootDatabase :=
  { db with revision := db.revision + 1, localRoots := roots }

/-- query_mut(LibraryRootsQuery).set. -/
def setLibraryRoots (db : RootDatabase) (roots : List SourceRootId) : RootDatabase :=
  { db with revision := db.revision + 1, libraryRoots := roots }

/-- query_mut(LibrarySymbolsQuery).set_constant: the write itself bumps
the revision like any input set (spec section 4.1). -/
def setLibrarySymbols (db : RootDatabase) (root_id : SourceRootId) (idx : SymbolIndex) : RootDatabase :=
  { db with
    revision := db.revision + 1,
    librarySymbols := fun r => if r = root_id then some idx else db.librarySymbols r }

/-- query_mut(CrateGraphQuery).set. -/
def setCrateGraph (db : RootDatabase) (graph : CrateGraph) : RootDatabase :=
  { db with revision := db.revision + 1, crateGraph := some graph }

/-- RootDatabase::default (db.rs lines 35-49): a fresh runtime followed by
setting the crate-graph, local-roots and library-roots inputs to their
defaults. -/
def RootDatabase.empty : RootDatabase :=
  { revision := 0,
    fileText := fun _ => none,
    fileRelativePath := fun _ => none,
    fileSourceRoot := fun _ => none,
    sourceRoot := fun _ => none,
    localRoots := [],
    libraryRoots := [],
    librarySymbols := fun _ => none,
    crateGraph := none }

def RootDatabase.default : RootDatabase :=
  setLibraryRoots (setLocalRoots (setCrateGraph RootDatabase.empty { crates := [] }) []) []

/-- An added file of a RootChange. -/
structure AddFile where
  file_id : FileId
  path : RelPath
  text : String
  deriving DecidableEq, Repr

/-- A removed file of a RootChange. -/
structure RemoveFile where
  file_id : FileId
  path : RelPath
  deriving DecidableEq, Repr

structure RootChange where
  added : List AddFile
  removed : List RemoveFile
  deriving DecidableEq, Repr

/-- A library shipped with its pre-built symbol index. -/
structure LibraryData where
  root_id : SourceRootId
  symbol_index : SymbolIndex
  root_change : RootChange
  deriving DecidableEq, Repr

/-- The change set (AnalysisChange): the single atomic mutation unit of
spec section 6. -/
structure AnalysisChange where
  new_roots : List (SourceRootId × Bool)
  roots_changed : List (SourceRootId × RootChange)
  files_changed : List (FileId × String)
  libraries_added : List LibraryData
  crate_graph : Option CrateGraph
  deriving DecidableEq, Repr

/-- The empty change set. -/
def AnalysisChange.empty : AnalysisChange :=
  { new_roots := [], roots_changed := [], files_changed := [],
    libraries_added := [], crate_graph := none }

/-- The for-loop over root_change.added: three input writes per file plus
an insertion into the cloned source-root map. -/
def applyAdds (root_id : SourceRootId) :
    RootDatabase × SourceRoot → List AddFile → RootDatabase × SourceRoot
  | acc, [] => acc
  | (db, sr), add_file :: rest =>
    let db := setFileText db add_file.file_id add_file.text
    let db := setFileRelativePath db add_file.file_id add_file.path
    let db := setFileSourceRoot db add_file.file_id root_id
    applyAdds root_id (db, sr.insertFile add_file.path add_file.file_id) rest

/-- The for-loop over root_change.removed: the file text is set back to
its default value (the relative-path and source-root inputs are left in
place) and the path is dropped from the cloned source-root map. -/
def applyRemoves : RootDatabase × SourceRoot → List RemoveFile → RootDatabase × SourceRoot
  | acc, [] => acc
  | (db, sr), remove_file :: rest =>
    applyRemoves (setFileText db remove_file.file_id "", sr.removeFile remove_file.path) rest

/-- AnalysisHostImpl::apply_root_change (imp.rs lines 89-112): clone the
current source root, process additions then removals, then write the
updated source root back.  Reading an unset SourceRootQuery slot would
panic in salsa; apply_change always sets new roots first, and we read
with a default for the (never exercised) unset case. -/
def apply_root_change (db : RootDatabase) (root_id : SourceRootId) (root_change : RootChange) :
    RootDatabase :=
  let source_root := (db.sourceRoot root_id).getD { files := [] }
  let acc := applyAdds root_id (db, source_root) root_change.added
  let acc := applyRemoves acc root_change.removed
  setSourceRoot acc.1 root_id acc.2

/-- The for-loop over change.new_roots: each root slot is initialized and
the local roots are accumulated in a local vector. -/
def newRootsLoop : RootDatabase → List (SourceRootId × Bool) → List SourceRootId →
    RootDatabase × List SourceRootId
  | db, [], local_roots => (db, local_roots)
  | db, (root_id, is_local) :: rest, local_roots =>
    newRootsLoop (setSourceRoot db root_id { files := [] }) rest
      (if is_local then local_roots ++ [root_id] else local_roots)

/-- The for-loop over change.libraries_added: push the root id, set the
root slot, set the constant symbol-index slot, then apply the library's
root change. -/
def librariesLoop : RootDatabase → List LibraryData → List SourceRootId →
    RootDatabase × List SourceRootId
  | db, [], libraries => (db, libraries)
  | db, library :: rest, libraries =>
    let libraries := libraries ++ [library.root_id]
    let db := setSourceRoot db library.root_id { files := [] }
    let db := setLibrarySymbols db library.root_id library.symbol_index
    let db := apply_root_change db library.root_id library.root_change
    librariesLoop db rest libraries

/-- The for-loop over change.roots_changed. -/
def rootsChangedLoop : RootDatabase → List (SourceRootId × RootChange) → RootDatabase
  | db, [] => db
  | db, (root_id, root_change) :: rest =>
    rootsChangedLoop (apply_root_change db root_id root_change) rest

/-- The for-loop over change.files_changed. -/
def filesChangedLoop : RootDatabase → List (FileId × String) → RootDatabase
  | db, [] => db
  | db, (file_id, text) :: rest => filesChangedLoop (setFileText db file_id text) rest

/-- AnalysisHostImpl::apply_change (imp.rs lines 42-87). -/
def apply_change (db : RootDatabase) (change : AnalysisChange) : RootDatabase :=
  let db :=
    if change.new_roots.isEmpty then db
    else
      let p := newRootsLoop db change.new_roots db.localRoots
      setLocalRoots p.1 p.2
  let db := rootsChangedLoop db change.roots_changed
  let db := filesChangedLoop db change.files_changed
  let db :=
    if change.libraries_added.isEmpty then db
    else
      let p := librariesLoop db change.libraries_added db.libraryRoots
      setLibraryRoots p.1 p.2
  match change.crate_graph with
  | some crate_graph => setCrateGraph db crate_graph
  | none => db

/-- Applying a sequence of change sets in order. -/
def applyChanges (db : RootDatabase) : List AnalysisChange → RootDatabase
  | [] => db
  | c :: cs => applyChanges (apply_change db c) cs

/-- Number of input writes performed by apply_root_change for one root
change: three per added file, one per removed file, one for the
source-root slot. -/
def rootChangeWrites (rc : RootChange) : Nat :=
  3 * rc.added.length + rc.removed.length + 1

/-- Number of input writes performed by apply_change for one change set:
the revision advances by exactly this count. -/
def changeWrites (change : AnalysisChange) : Nat :=
  (if change.new_roots.isEmpty then 0 else change.new_roots.length + 1)
  + (change.roots_changed.map (fun p => rootChangeWrites p.2)).sum
  + change.files_changed.length
  + (if change.libraries_added.isEmpty then 0
     else (change.libraries_added.map (fun l => 2 + rootChangeWrites l.root_change)).sum + 1)
  + (if change.crate_graph.isSome then 1 else 0)

/-!
## Diagnostics (imp.rs lines 343-405) and parent_module (lines 183-200)

The hir module tree, its problem computation and source_binder live in
crates not under src/; they are modelled from the spec as snapshot fields
below.
-/

/-- Severity of a diagnostic (ra_editor::Severity). -/
inductive Severity
  | Error
  | WeakWarning
  deriving DecidableEq, Repr

/-- A syntax name node, carrying its text and range. -/
structure NameNode where
  text : String
  range : TextRange
  deriving DecidableEq, Repr

/-- Modelled from the spec: the Problem values emitted by the module tree
for a declaration that fails to resolve (spec section 4.4); the hir crate
that computes them is not under src/. -/
inductive Problem
  | UnresolvedModule (candidate : RelPath)
  | NotDirOwner (move_to : RelPath) (candidate : RelPath)
  deriving DecidableEq, Repr

/-- A single text edit of a file (ra_editor::LocalEdit's edit payload,
opaque to the claims). -/
structure TextEdit where
  delete : TextRange
  insert : String
  deriving DecidableEq, Repr

structure SourceFileEdit where
  file_id : FileId
  edit : List TextEdit
  deriving DecidableEq, Repr

/-- File-system operations of a fix (crate-root FileSystemEdit). -/
inductive FileSystemEdit
  | CreateFile (source_root : SourceRootId) (path : RelPath)
  | MoveFile (src : FileId) (dst_source_root : SourceRootId) (dst_path : RelPath)
  deriving DecidableEq, Repr

structure SourceChange where
  label : String
  source_file_edits : List SourceFileEdit
  file_system_edits : List FileSystemEdit
  cursor_position : Option FilePosition
  deriving DecidableEq, Repr

structure Diagnostic where
  range : TextRange
  message : String
  severity : Severity
  fix : Option SourceChange
  deriving DecidableEq, Repr

/-- A local edit produced by the ra_editor helpers. -/
structure LocalEdit where
  label : String
  edit : List TextEdit
  cursor_position : Option Nat
  deriving DecidableEq, Repr

/-- SourceChange::from_local_edit (imp.rs lines 515-530). -/
def SourceChange.from_local_edit (file_id : FileId) (edit : LocalEdit) : SourceChange :=
  { label := edit.label,
    source_file_edits := [{ file_id := file_id, edit := edit.edit }],
    file_system_edits := [],
    cursor_position := edit.cursor_position.map (fun offset => { offset := offset, file_id := file_id }) }

/-- A syntax diagnostic as produced by ra_editor::diagnostics (external
collaborator, pure over syntax). -/
structure EditorDiagnostic where
  range : TextRange
  msg : String
  severity : Severity
  fix : Option LocalEdit
  deriving DecidableEq, Repr

/-- Modelled from the spec: the module descriptor returned by the hir
source_binder (not under src/): its list of problems, each at the range
of the declared name, and its parent link (the declaration site of this
module in the parent module's file). -/
structure ModuleDescr where
  problems : List (NameNode × Problem)
  parentLinkSource : Option (FileId × Option NameNode)
  deriving DecidableEq

/-- The read-only snapshot view the analysis operations run on.  Derived
queries of crates not under src/ (ra_editor diagnostics, hir
source_binder and module problems) are modelled from the spec as fields;
file_source_root is the input slot of the same name. -/
structure AnalysisSnapshot where
  editorDiagnostics : FileId → List EditorDiagnostic
  moduleFromFileId : FileId → Cancelable (Option ModuleDescr)
  moduleFromPosition : FilePosition → Cancelable (Option ModuleDescr)
  fileSourceRootOf : FileId → SourceRootId

/-- The match arm building one diagnostic from one module problem
(imp.rs lines 358-400). -/
def problemToDiagnostic (source_root : SourceRootId) (file_id : FileId)
    (np : NameNode × Problem) : Diagnostic :=
  match np.2 with
  | Problem.UnresolvedModule candidate =>
    let create_file := FileSystemEdit.CreateFile source_root candidate
    let fix : SourceChange :=
      { label := "create module",
        source_file_edits := [],
        file_system_edits := [create_file],
        cursor_position := none }
    { range := np.1.range,
      message := "unresolved module",
      severity := Severity.Error,
      fix := some fix }
  | Problem.NotDirOwner move_to candidate =>
    let move_file := FileSystemEdit.MoveFile file_id source_root move_to
    let create_file := FileSystemEdit.CreateFile source_root (move_to ++ "/" ++ candidate)
    let fix : SourceChange :=
      { label := "move file and create module",
        source_file_edits := [],
        file_system_edits := [move_file, create_file],
        cursor_position := none }
    { range := np.1.range,
      message := "cannot declare module at this location",
      severity := Severity.Error,
      fix := some fix }

/-- AnalysisImpl::diagnostics (imp.rs lines 343-405): syntax diagnostics
mapped through from_local_edit, then one diagnostic per module problem
appended in order. -/
def diagnostics (s : AnalysisSnapshot) (file_id : FileId) : Cancelable (List Diagnostic) :=
  let res := (s.editorDiagnostics file_id).map
    (fun d => { range := d.range, message := d.msg, severity := d.severity,
                fix := d.fix.map (SourceChange.from_local_edit file_id) })
  match s.moduleFromFileId file_id with
  | Except.error c => Except.error c
  | Except.ok none => Except.ok res
  | Except.ok (some m) =>
    Except.ok (res ++ m.problems.map (problemToDiagnostic (s.fileSourceRootOf file_id) file_id))

/-- AnalysisImpl::parent_module (imp.rs lines 183-200): after the
module-descriptor and parent-link lookups, decl.name().unwrap() panics
when the declaration has no name; otherwise the single declaration site
is returned. -/
def parent_module (s : AnalysisSnapshot) (position : FilePosition) :
    Cancelable (PanicOr (List (FileId × FileSymbol))) :=
  match s.moduleFromPosition position with
  | Except.error c => Except.error c
  | Except.ok none => Except.ok (PanicOr.ok [])
  | Except.ok (some descr) =>
    match descr.parentLinkSource with
    | none => Except.ok (PanicOr.ok [])
    | some (file_id, decl_name_opt) =>
      match decl_name_opt with
      | none => Except.ok (PanicOr.panicked "unwrap of a None declaration name")
      | some decl_name =>
        Except.ok (PanicOr.ok
          [(file_id,
            { name := decl_name.text,
              node_range := decl_name.range,
              kind := SyntaxKind.MODULE })])

/-!
## struct_data and enum_data (query_definitions.rs lines 46-62)
-/

/-- The kind part of an interned definition location. -/
inductive DefKind
  | Struct
  | Enum
  | Function
  | Item
  deriving DecidableEq, Repr

/-- SourceItemId = (FileId, Option ItemIndex). -/
structure SourceItemId where
  file_id : FileId
  item_id : Option Nat
  deriving DecidableEq, Repr

/-- An interned definition location. -/
structure DefLoc where
  kind : DefKind
  source_item_id : SourceItemId
  deriving DecidableEq, Repr

abbrev DefId := Nat

/-- Payload of a struct definition node; its fields are opaque to the
claims. -/
structure StructDefData where
  name : String
  deriving DecidableEq, Repr

/-- Payload of an enum definition node. -/
structure EnumDefData where
  name : String
  deriving DecidableEq, Repr

/-- A syntax node as returned by the file_item query: either a struct
definition, an enum definition, or a node of some other shape. -/
inductive SyntaxNode
  | structDef (data : StructDefData)
  | enumDef (data : EnumDefData)
  | other (kind : SyntaxKind)
  deriving DecidableEq, Repr

/-- ast::StructDef::cast. -/
def castStructDef : SyntaxNode → Option StructDefData
  | SyntaxNode.structDef data => some data
  | _ => none

/-- ast::EnumDef::cast. -/
def castEnumDef : SyntaxNode → Option EnumDefData
  | SyntaxNode.enumDef data => some data
  | _ => none

/-- Modelled from the spec: StructData (crate ra_hir, adt.rs, not under
src/) is a pure projection of the struct definition node. -/
structure StructData where
  def_node : StructDefData
  deriving DecidableEq, Repr

def StructData.new (struct_def : StructDefData) : StructData :=
  { def_node := struct_def }

/-- Modelled from the spec: EnumData, the enum counterpart. -/
structure EnumData where
  def_node : EnumDefData
  deriving DecidableEq, Repr

def EnumData.new (enum_def : EnumDefData) : EnumData :=
  { def_node := enum_def }

/-- The database view struct_data and enum_data read: the interning
lookup def_id.loc(db) and the file_item query.  The interning store
panics on an unknown id; the claims only concern interned ids, so the
lookup is total here. -/
structure HirDb where
  defLoc : DefId → DefLoc
  file_item : SourceItemId → SyntaxNode

/-- struct_data (query_definitions.rs lines 46-53): assert the DefKind,
fetch the source item, cast it (expect panics on a mismatch) and build
the StructData. -/
def struct_data (db : HirDb) (def_id : DefId) : PanicOr (Cancelable StructData) :=
  let def_loc := db.defLoc def_id
  if def_loc.kind = DefKind.Struct then
    match castStructDef (db.file_item def_loc.source_item_id) with
    | some struct_def => PanicOr.ok (Except.ok (StructData.new struct_def))
    | none => PanicOr.panicked "struct def should point to StructDef node"
  else PanicOr.panicked "assertion failed: def_loc.kind == DefKind::Struct"

/-- enum_data (query_definitions.rs lines 55-62). -/
def enum_data (db : HirDb) (def_id : DefId) : PanicOr (Cancelable EnumData) :=
  let def_loc := db.defLoc def_id
  if def_loc.kind = DefKind.Enum then
    match castEnumDef (db.file_item def_loc.source_item_id) with
    | some enum_def => PanicOr.ok (Except.ok (EnumData.new enum_def))
    | none => PanicOr.panicked "enum def should point to EnumDef node"
  else PanicOr.panicked "assertion failed: def_loc.kind == DefKind::Enum"

/-!
## Invariant predicates for the input layer (spec section 3)
-/

/-- All three per-file inputs are set. -/
def allSet (db : RootDatabase) (f : FileId) : Prop :=
  (db.fileText f).isSome = true ∧ (db.fileRelativePath f).isSome = true
    ∧ (db.fileSourceRoot f).isSome = true

instance (db : RootDatabase) (f : FileId) : Decidable (allSet db f) := by
  unfold allSet; infer_instance

/-- All three per-file inputs are absent. -/
def allAbsent (db : RootDatabase) (f : FileId) : Prop :=
  db.fileText f = none ∧ db.fileRelativePath f = none ∧ db.fileSourceRoot f = none

instance (db : RootDatabase) (f : FileId) : Decidable (allAbsent db f) := by
  unfold allAbsent; infer_instance

/-- For one FileId, the file text, relative path and source-root inputs
are all set or all absent. -/
def consistentAt (db : RootDatabase) (f : FileId) : Prop :=
  allSet db f ∨ allAbsent db f

instance (db : RootDatabase) (f : FileId) : Decidable (consistentAt db f) := by
  unfold consistentAt; infer_instance

/-- The spec-section-3 invariant over every FileId. -/
def filesConsistent (db : RootDatabase) : Prop :=
  ∀ f, consistentAt db f

/-- The file ids a change set adds (through root changes, local or
library). -/
def addedIds (change : AnalysisChange) : List FileId :=
  change.roots_changed.flatMap (fun p => p.2.added.map (fun a => a.file_id))
  ++ change.libraries_added.flatMap (fun l => l.root_change.added.map (fun a => a.file_id))

/-- The file ids a change set removes. -/
def removedIds (change : AnalysisChange) : List FileId :=
  change.roots_changed.flatMap (fun p => p.2.removed.map (fun r => r.file_id))
  ++ change.libraries_added.flatMap (fun l => l.root_change.removed.map (fun r => r.file_id))

/-- The file ids whose text a change set rewrites. -/
def changedIds (change : AnalysisChange) : List FileId :=
  change.files_changed.map (fun p => p.1)

/-- A change set is well formed for a database when every file it
removes or whose text it rewrites already has its three inputs set
(files are only edited or removed after having been added). -/
def wellFormedFor (db : RootDatabase) (change : AnalysisChange) : Prop :=
  ∀ f ∈ removedIds change ++ changedIds change, allSet db f

instance (db : RootDatabase) (change : AnalysisChange) : Decidable (wellFormedFor db change) := by
  unfold wellFormedFor; infer_instance

/-- Every change of the sequence is well formed for the state it is
applied to. -/
def WFSeq : RootDatabase → List AnalysisChange → Prop
  | _, [] => True
  | db, c :: cs => wellFormedFor db c ∧ WFSeq (apply_change db c) cs

/-- The three per-file inputs agree at f between two database states. -/
def fileInputsEq (db db2 : RootDatabase) (f : FileId) : Prop :=
  db2.fileText f = db.fileText f ∧ db2.fileRelativePath f = db.fileRelativePath f
    ∧ db2.fileSourceRoot f = db.fileSourceRoot f

/-!
## Concrete fixtures used by witnesses and counterexamples
-/

/-- A struct symbol named Foo. -/
def fooStructSym : FileSymbol :=
  { name := "Foo", node_range := { start := 0, stop := 10 }, kind := SyntaxKind.STRUCT_DEF }

/-- A function symbol named foo. -/
def fooFnSym : FileSymbol :=
  { name := "foo", node_range := { start := 0, stop := 12 }, kind := SyntaxKind.FN_DEF }

/-- An exact, type-only query for Foo with limit 8. -/
def queryFoo : Query :=
  { query := "Foo", lowercased := "foo", only_types := true, libs := false,
    exact := true, limit := 8 }

/-- An exact query for foo with limit 1. -/
def queryFooLimit1 : Query :=
  { query := "foo", lowercased := "foo", only_types := false, libs := false,
    exact := true, limit := 1 }

/-- The index of a single file declaring struct Foo. -/
def idxFoo : SymbolIndex :=
  SymbolIndex.for_file 1 { symbols := [fooStructSym] }

/-- The index of file 1 declaring fn foo. -/
def idxFn1 : SymbolIndex :=
  SymbolIndex.for_file 1 { symbols := [fooFnSym] }

/-- The index of file 2 declaring fn foo. -/
def idxFn2 : SymbolIndex :=
  SymbolIndex.for_file 2 { symbols := [fooFnSym] }

/-- One file declaring struct Foo and fn foo, whose lowercased names
collide. -/
def filesFixture : List (FileId × SourceFileNode) :=
  [(1, { symbols := [fooStructSym, fooFnSym] })]

/-- The argument list of the call x.bar(1, ) of spec scenario 3: it
starts at offset 5 of the file text x.bar(1, ) and the cursor sits at
offset 9, right after the comma and space. -/
def argListBar : ArgListNode :=
  { start := 5, text := "(1, )".toList }

/-- A change set that only rewrites the texts of files 1 and 2. -/
def changeTwoTexts : AnalysisChange :=
  { AnalysisChange.empty with files_changed := [(1, "a"), (2, "b")] }

/-- A change set that rewrites the text of the never-added file 0. -/
def changeUnknownText : AnalysisChange :=
  { AnalysisChange.empty with files_changed := [(0, "x")] }

/-- A change set declaring local root 0 with one added file 1. -/
def changeAddRoot : AnalysisChange :=
  { AnalysisChange.empty with
    new_roots := [(0, true)],
    roots_changed := [(0, { added := [{ file_id := 1, path := "lib.rs", text := "fn f()" }], removed := [] })] }

/-- A change set removing file 1 from root 0 again. -/
def changeRemoveFile : AnalysisChange :=
  { AnalysisChange.empty with
    roots_changed := [(0, { added := [], removed := [{ file_id := 1, path := "lib.rs" }] })] }

/-- A snapshot whose file 7 is a module with one unresolved submodule
declaration named missing. -/
def snapUnresolved : AnalysisSnapshot :=
  { editorDiagnostics := fun _ => [],
    moduleFromFileId := fun f =>
      if f = 7 then
        Except.ok (some
          { problems := [({ text := "missing", range := { start := 4, stop := 11 } },
                          Problem.UnresolvedModule "missing.rs")],
            parentLinkSource := none })
      else Except.ok none,
    moduleFromPosition := fun p =>
      if p.file_id = 7 then
        Except.ok (some
          { problems := [],
            parentLinkSource := some (3, some { text := "child", range := { start := 4, stop := 9 } }) })
      else Except.ok none,
    fileSourceRootOf := fun _ => 0 }

/-- The parent-module symbol the snapUnresolved fixture yields for a
position in file 7. -/
def childModuleSym : FileId × FileSymbol :=
  (3, { name := "child", node_range := { start := 4, stop := 9 }, kind := SyntaxKind.MODULE })

/-- The diagnostic expected for the unresolved module of snapUnresolved. -/
def unresolvedDiagFixture : Diagnostic :=
  { range := { start := 4, stop := 11 },
    message := "unresolved module",
    severity := Severity.Error,
    fix := some { label := "create module",
                  source_file_edits := [],
                  file_system_edits := [FileSystemEdit.CreateFile 0 "missing.rs"],
                  cursor_position := none } }

/-- A hir database whose def 0 is a struct at item 0 of file 1 and whose
def 1 is an enum at item 1 of file 1. -/
def hirDbFixture : HirDb :=
  { defLoc := fun id =>
      if id = 0 then { kind := DefKind.Struct, source_item_id := { file_id := 1, item_id := some 0 } }
      else { kind := DefKind.Enum, source_item_id := { file_id := 1, item_id := some 1 } },
    file_item := fun sid =>
      if sid.item_id = some 0 then SyntaxNode.structDef { name := "S" }
      else SyntaxNode.enumDef { name := "E" } }

/-!
## Theorems
-/

/-- C10: when resolve_callable resolves the callee to a function whose
signature has exactly one declared parameter, it returns
current_parameter = Some 0 if the function has no self parameter, and
None when the only parameter is the self receiver; in the latter case no
comma counting is performed: the result is None for every argument list
and cursor position. -/
theorem current_parameter_one_param :
    ∀ (arg_list : Option ArgListNode) (offset : Nat),
      current_parameter 1 false arg_list offset = some 0 ∧
      current_parameter 1 true arg_list offset = none := by
  intro al off
  exact ⟨rfl, rfl⟩

/-- C5 counterexample: in the method call x.bar(1, ) with the cursor at
offset 9, the argument-list slice up to the cursor holds exactly one
comma, and the code computes current_parameter = Some 2 — not Some 1 as
the claim states for this scenario. -/
theorem current_parameter_method_example :
    commasInRange argListBar 9 = 1 ∧
    current_parameter 2 true (some argListBar) 9 = some 2 ∧
    current_parameter 2 true (some argListBar) 9 ≠ some 1 :=
  ⟨by decide, by decide, by decide⟩

/-- C5 (amended): for a signature with more than one declared parameter
and a present argument list, current_parameter is the number of commas
in the argument-list text between the start of the argument list and the
cursor, plus 1 when the call is a method call; on the scenario
x.bar(1, ) with one comma before the cursor this yields 2. -/
theorem current_parameter_comma_count (num_params : Nat) (has_self : Bool)
    (al : ArgListNode) (offset : Nat) (h : 1 < num_params) :
    current_parameter num_params has_self (some al) offset =
      some (commasInRange al offset + if has_self then 1 else 0) := by
  unfold current_parameter
  have h1 : ¬ (num_params = 1) := by omega
  rw [if_neg h1, if_pos h]
  cases has_self <;> simp

/-- Witness for the amended comma-count theorem at the spec scenario. -/
theorem current_parameter_comma_count_witness :
    1 < 2 ∧
    current_parameter 2 true (some argListBar) 9 =
      some (commasInRange argListBar 9 + if true then 1 else 0) :=
  ⟨by decide, current_parameter_comma_count 2 true argListBar 9 (by decide)⟩

/-- C9: when a DefId's interned location has kind Struct (resp. Enum)
and its source item casts to a struct (resp. enum) definition node,
struct_data (resp. enum_data) returns Ok; a mismatched DefKind or a
source item of unexpected shape makes them panic — a loud, unrecoverable
failure, never a returned error value. -/
theorem struct_enum_data_total (db : HirDb) (def_id : DefId) :
    ((db.defLoc def_id).kind = DefKind.Struct →
      ∀ sd, castStructDef (db.file_item (db.defLoc def_id).source_item_id) = some sd →
        struct_data db def_id = PanicOr.ok (Except.ok (StructData.new sd))) ∧
    ((db.defLoc def_id).kind = DefKind.Enum →
      ∀ ed, castEnumDef (db.file_item (db.defLoc def_id).source_item_id) = some ed →
        enum_data db def_id = PanicOr.ok (Except.ok (EnumData.new ed))) ∧
    (¬ (db.defLoc def_id).kind = DefKind.Struct →
      ∃ msg, struct_data db def_id = PanicOr.panicked msg) ∧
    (¬ (db.defLoc def_id).kind = DefKind.Enum →
      ∃ msg, enum_data db def_id = PanicOr.panicked msg) ∧
    (castStructDef (db.file_item (db.defLoc def_id).source_item_id) = none →
      ∃ msg, struct_data db def_id = PanicOr.panicked msg) ∧
    (castEnumDef (db.file_item (db.defLoc def_id).source_item_id) = none →
      ∃ msg, enum_data db def_id = PanicOr.panicked msg) := by
  refine ⟨?_, ?_, ?_, ?_, ?_, ?_⟩
  · intro hk sd hc
    unfold struct_data
    rw [if_pos hk, hc]
  · intro hk ed hc
    unfold enum_data
    rw [if_pos hk, hc]
  · intro hk
    unfold struct_data
    rw [if_neg hk]
    exact ⟨_, rfl⟩
  · intro hk
    unfold enum_data
    rw [if_neg hk]
    exact ⟨_, rfl⟩
  · intro hc
    unfold struct_data
    by_cases hk : (db.defLoc def_id).kind = DefKind.Struct
    · rw [if_pos hk, hc]
      exact ⟨_, rfl⟩
    · rw [if_neg hk]
      exact ⟨_, rfl⟩
  · intro hc
    unfold enum_data
    by_cases hk : (db.defLoc def_id).kind = DefKind.Enum
    · rw [if_pos hk, hc]
      exact ⟨_, rfl⟩
    · rw [if_neg hk]
      exact ⟨_, rfl⟩

/-- Witness for the struct_data and enum_data theorem on a concrete hir
database. -/
theorem struct_enum_data_total_witness :
    struct_data hirDbFixture 0 = PanicOr.ok (Except.ok (StructData.new { name := "S" })) ∧
    enum_data hirDbFixture 1 = PanicOr.ok (Except.ok (EnumData.new { name := "E" })) :=
  ⟨(struct_enum_data_total hirDbFixture 0).1 (by decide) { name := "S" } (by decide),
   (struct_enum_data_total hirDbFixture 1).2.1 (by decide) { name := "E" } (by decide)⟩

/-- C8: parent_module, whenever it returns a value (neither cancelled
nor panicking on a nameless declaration), returns a list of length at
most one: empty without a containing module or parent link, and exactly
the parent declaration site otherwise. -/
theorem parent_module_at_most_one (s : AnalysisSnapshot) (position : FilePosition)
    (l : List (FileId × FileSymbol))
    (h : parent_module s position = Except.ok (PanicOr.ok l)) : l.length ≤ 1 := by
  unfold parent_module at h
  split at h
  · exact Except.noConfusion h
  · injection h with h1
    injection h1 with h2
    rw [← h2]
    decide
  · split at h
    · injection h with h1
      injection h1 with h2
      rw [← h2]
      decide
    · split at h
      · injection h with h1
        exact PanicOr.noConfusion h1
      · injection h with h1
        injection h1 with h2
        rw [← h2]
        simp

/-- Witness for parent_module on a concrete snapshot: one parent link,
one returned entry. -/
theorem parent_module_at_most_one_witness :
    parent_module snapUnresolved { file_id := 7, offset := 0 } =
      Except.ok (PanicOr.ok [childModuleSym]) ∧
    [childModuleSym].length ≤ 1 :=
  ⟨by decide,
   parent_module_at_most_one snapUnresolved { file_id := 7, offset := 0 } [childModuleSym] (by decide)⟩

/-- C6: for every file whose module carries an UnresolvedModule problem,
diagnostics returns a list containing a diagnostic at the range of the
declared name, with severity error, message unresolved module, and a fix
whose sole file-system edit creates a file at the candidate path in the
file's source root. -/
theorem diagnostics_unresolved_module (s : AnalysisSnapshot) (file_id : FileId)
    (m : ModuleDescr) (name_node : NameNode) (candidate : RelPath)
    (hm : s.moduleFromFileId file_id = Except.ok (some m))
    (hp : (name_node, Problem.UnresolvedModule candidate) ∈ m.problems) :
    ∃ l, diagnostics s file_id = Except.ok l ∧
      ({ range := name_node.range,
         message := "unresolved module",
         severity := Severity.Error,
         fix := some { label := "create module",
                       source_file_edits := [],
                       file_system_edits :=
                         [FileSystemEdit.CreateFile (s.fileSourceRootOf file_id) candidate],
                       cursor_position := none } } : Diagnostic) ∈ l := by
  unfold diagnostics
  rw [hm]
  refine ⟨_, rfl, ?_⟩
  apply List.mem_append_right
  exact List.mem_map.mpr ⟨(name_node, Problem.UnresolvedModule candidate), hp, rfl⟩

/-- Witness for the unresolved-module diagnostic on a concrete
snapshot. -/
theorem diagnostics_unresolved_module_witness :
    ∃ l, diagnostics snapUnresolved 7 = Except.ok l ∧ unresolvedDiagFixture ∈ l :=
  diagnostics_unresolved_module snapUnresolved 7
    { problems := [({ text := "missing", range := { start := 4, stop := 11 } },
                    Problem.UnresolvedModule "missing.rs")],
      parentLinkSource := none }
    { text := "missing", range := { start := 4, stop := 11 } }
    "missing.rs" (by decide) (by decide)

/-- The two filters of the inner loop of Query::search, read off one
accepted candidate. -/
theorem acceptSymbol_filters (q : Query) (indices : List SymbolIndex) (iv : Nat × Nat)
    (r : FileId × FileSymbol) (h : acceptSymbol q indices iv = some r) :
    (q.only_types = true → is_type r.2.kind = true) ∧
    (q.exact = true → r.2.name = q.query) := by
  unfold acceptSymbol at h
  split at h
  · exact Option.noConfusion h
  · split at h
    · exact Option.noConfusion h
    · split at h
      · exact Option.noConfusion h
      · split at h
        · exact Option.noConfusion h
        · rename_i fs ho he
          injection h with h3
          subst h3
          constructor
          · intro hot
            simp only [hot, Bool.true_and, Bool.not_eq_true] at ho
            simpa using ho
          · intro hex
            simp only [hex, Bool.true_and, Bool.not_eq_true] at he
            simpa using he

/-- Every member of the search loop's result either was in the
accumulator or passed the filters. -/
theorem searchLoop_mem (q : Query) (indices : List SymbolIndex)
    (P : FileId × FileSymbol → Prop)
    (hacc : ∀ iv r, acceptSymbol q indices iv = some r → P r) :
    ∀ (keys : List (List Char)) (res : List (FileId × FileSymbol)),
      (∀ x ∈ res, P x) → ∀ r ∈ searchLoop q indices keys res, P r := by
  intro keys
  induction keys with
  | nil =>
    intro res hres r hr
    exact hres r hr
  | cons key rest ih =>
    intro res hres r hr
    unfold searchLoop at hr
    by_cases hl : res.length ≥ q.limit
    · rw [if_pos hl] at hr
      exact hres r hr
    · rw [if_neg hl] at hr
      refine ih _ ?_ r hr
      intro x hx
      rcases List.mem_append.mp hx with hx1 | hx2
      · exact hres x hx1
      · simp only [acceptedFor] at hx2
        rcases List.mem_filterMap.mp hx2 with ⟨iv, _, hsome⟩
        exact hacc iv x hsome

/-- C7: every result of Query::search respects the two filters: with
only_types set its kind is a type-defining kind (struct, enum, trait or
type alias), and with exact set its name equals the original
(non-lowercased) query text. -/
theorem search_filters (q : Query) (indices : List SymbolIndex)
    (r : FileId × FileSymbol) (h : r ∈ q.search indices) :
    (q.only_types = true → is_type r.2.kind = true) ∧
    (q.exact = true → r.2.name = q.query) := by
  unfold Query.search at h
  exact searchLoop_mem q indices _
    (fun iv x hx => acceptSymbol_filters q indices iv x hx)
    (unionKeys q.lowercased indices) [] (by intro x hx; cases hx) r h

/-- Witness for the search filters on a concrete exact, type-only
query. -/
theorem search_filters_witness :
    ((1, fooStructSym) ∈ queryFoo.search [idxFoo]) ∧
    is_type fooStructSym.kind = true ∧ fooStructSym.name = queryFoo.query := by
  have h := search_filters queryFoo [idxFoo] (1, fooStructSym) (by decide)
  exact ⟨by decide, h.1 rfl, h.2 rfl⟩

/-!
## C1: revision accounting of apply_change
-/

/-- Each added file costs three input writes. -/
theorem applyAdds_revision (root_id : SourceRootId) (adds : List AddFile) :
    ∀ (p : RootDatabase × SourceRoot),
      (applyAdds root_id p adds).1.revision = p.1.revision + 3 * adds.length := by
  induction adds with
  | nil => intro p; rfl
  | cons af rest ih =>
    intro p
    obtain ⟨db, sr⟩ := p
    simp only [applyAdds]
    rw [ih]
    simp only [setFileSourceRoot, setFileRelativePath, setFileText, List.length_cons]
    omega

/-- Each removed file costs one input write. -/
theorem applyRemoves_revision (rems : List RemoveFile) :
    ∀ (p : RootDatabase × SourceRoot),
      (applyRemoves p rems).1.revision = p.1.revision + rems.length := by
  induction rems with
  | nil => intro p; rfl
  | cons rf rest ih =>
    intro p
    obtain ⟨db, sr⟩ := p
    simp only [applyRemoves]
    rw [ih]
    simp only [setFileText, List.length_cons]
    omega

/-- apply_root_change writes three slots per added file, one per removed
file, plus the source-root slot. -/
theorem apply_root_change_revision (db : RootDatabase) (root_id : SourceRootId) (rc : RootChange) :
    (apply_root_change db root_id rc).revision = db.revision + rootChangeWrites rc := by
  unfold apply_root_change
  simp only [setSourceRoot]
  rw [applyRemoves_revision, applyAdds_revision]
  dsimp only
  unfold rootChangeWrites
  omega

/-- The new-roots loop writes one source-root slot per declared root. -/
theorem newRootsLoop_revision (roots : List (SourceRootId × Bool)) :
    ∀ (db : RootDatabase) (acc : List SourceRootId),
      (newRootsLoop db roots acc).1.revision = db.revision + roots.length := by
  induction roots with
  | nil => intro db acc; rfl
  | cons r rest ih =>
    intro db acc
    obtain ⟨root_id, is_local⟩ := r
    simp only [newRootsLoop]
    rw [ih]
    simp only [setSourceRoot, List.length_cons]
    omega

/-- The libraries loop writes the root slot, the constant symbol-index
slot, and the root change of each library. -/
theorem librariesLoop_revision (libs : List LibraryData) :
    ∀ (db : RootDatabase) (acc : List SourceRootId),
      (librariesLoop db libs acc).1.revision =
        db.revision + (libs.map (fun l => 2 + rootChangeWrites l.root_change)).sum := by
  induction libs with
  | nil => intro db acc; rfl
  | cons library rest ih =>
    intro db acc
    simp only [librariesLoop]
    rw [ih, apply_root_change_revision]
    simp only [setLibrarySymbols, setSourceRoot, List.map_cons, List.sum_cons]
    omega

/-- The roots-changed loop accumulates the per-root write counts. -/
theorem rootsChangedLoop_revision (rcs : List (SourceRootId × RootChange)) :
    ∀ (db : RootDatabase),
      (rootsChangedLoop db rcs).revision =
        db.revision + (rcs.map (fun p => rootChangeWrites p.2)).sum := by
  induction rcs with
  | nil => intro db; rfl
  | cons rc rest ih =>
    intro db
    obtain ⟨root_id, root_change⟩ := rc
    simp only [rootsChangedLoop]
    rw [ih, apply_root_change_revision]
    simp only [List.map_cons, List.sum_cons]
    omega

/-- The files-changed loop writes one text slot per file. -/
theorem filesChangedLoop_revision (fcs : List (FileId × String)) :
    ∀ (db : RootDatabase),
      (filesChangedLoop db fcs).revision = db.revision + fcs.length := by
  induction fcs with
  | nil => intro db; rfl
  | cons fc rest ih =>
    intro db
    obtain ⟨file_id, text⟩ := fc
    simp only [filesChangedLoop]
    rw [ih]
    simp only [setFileText, List.length_cons]
    omega

/-- C1 (amended): apply_change advances the revision once per input
write it performs — one per newly declared root plus one for the
local-roots list when any root is declared; three per added and one per
removed file plus one per changed root; one per changed file text; two
per added library plus its root change plus one for the library-roots
list; and one when a crate graph is supplied — rather than exactly once
per change set. -/
theorem apply_change_revision (db : RootDatabase) (change : AnalysisChange) :
    (apply_change db change).revision = db.revision + changeWrites change := by
  unfold apply_change changeWrites
  by_cases h1 : change.new_roots.isEmpty <;>
    by_cases h2 : change.libraries_added.isEmpty <;>
      cases hcg : change.crate_graph
  all_goals
    simp only [h1, h2, hcg, if_true, if_false, Bool.false_eq_true, Option.isSome_some,
      Option.isSome_none, ite_true, ite_false, setCrateGraph, setLibraryRoots, setLocalRoots]
    repeat' (first
      | rw [librariesLoop_revision]
      | rw [filesChangedLoop_revision]
      | rw [rootsChangedLoop_revision]
      | rw [newRootsLoop_revision]
      | dsimp only)
    omega

/-- C1 counterexample: the change set rewriting the texts of files 1 and
2 advances the revision by two, not exactly once. -/
theorem apply_change_two_texts_revision :
    (apply_change RootDatabase.default changeTwoTexts).revision
        = RootDatabase.default.revision + 2 ∧
    ¬ ((apply_change RootDatabase.default changeTwoTexts).revision
        = RootDatabase.default.revision + 1) :=
  ⟨by decide, by decide⟩

/-!
## C4: the all-or-none invariant of the per-file inputs

No write path ever clears the relative-path or source-root slots, and
file removal sets the text slot to the default value (still a set
value), so allSet is preserved by every write; fresh files are made
allSet by the three writes of an addition; untouched files keep their
slots unchanged.
-/

theorem allSet_setFileText {db : RootDatabase} {f : FileId} (fid : FileId) (t : String)
    (h : allSet db f) : allSet (setFileText db fid t) f := by
  obtain ⟨h1, h2, h3⟩ := h
  refine ⟨?_, h2, h3⟩
  simp only [setFileText]
  by_cases hf : f = fid
  · simp [hf]
  · simpa [hf] using h1

theorem allSet_setFileRelativePath {db : RootDatabase} {f : FileId} (fid : FileId) (p : RelPath)
    (h : allSet db f) : allSet (setFileRelativePath db fid p) f := by
  obtain ⟨h1, h2, h3⟩ := h
  refine ⟨h1, ?_, h3⟩
  simp only [setFileRelativePath]
  by_cases hf : f = fid
  · simp [hf]
  · simpa [hf] using h2

theorem allSet_setFileSourceRoot {db : RootDatabase} {f : FileId} (fid : FileId) (r : SourceRootId)
    (h : allSet db f) : allSet (setFileSourceRoot db fid r) f := by
  obtain ⟨h1, h2, h3⟩ := h
  refine ⟨h1, h2, ?_⟩
  simp only [setFileSourceRoot]
  by_cases hf : f = fid
  · simp [hf]
  · simpa [hf] using h3

theorem allSet_setSourceRoot {db : RootDatabase} {f : FileId} (rid : SourceRootId) (sr : SourceRoot)
    (h : allSet db f) : allSet (setSourceRoot db rid sr) f := h

theorem allSet_setLibrarySymbols {db : RootDatabase} {f : FileId} (rid : SourceRootId)
    (idx : SymbolIndex) (h : allSet db f) : allSet (setLibrarySymbols db rid idx) f := h

theorem allSet_applyAdds (root_id : SourceRootId) (adds : List AddFile) :
    ∀ (p : RootDatabase × SourceRoot) (f : FileId),
      allSet p.1 f → allSet (applyAdds root_id p adds).1 f := by
  induction adds with
  | nil => intro p f h; exact h
  | cons af rest ih =>
    intro p f h
    obtain ⟨db, sr⟩ := p
    simp only [applyAdds]
    exact ih _ f (allSet_setFileSourceRoot _ _ (allSet_setFileRelativePath _ _
      (allSet_setFileText _ _ h)))

theorem allSet_applyRemoves (rems : List RemoveFile) :
    ∀ (p : RootDatabase × SourceRoot) (f : FileId),
      allSet p.1 f → allSet (applyRemoves p rems).1 f := by
  induction rems with
  | nil => intro p f h; exact h
  | cons rf rest ih =>
    intro p f h
    obtain ⟨db, sr⟩ := p
    simp only [applyRemoves]
    exact ih _ f (allSet_setFileText _ _ h)

theorem allSet_apply_root_change {db : RootDatabase} {f : FileId}
    (root_id : SourceRootId) (rc : RootChange) (h : allSet db f) :
    allSet (apply_root_change db root_id rc) f := by
  simp only [apply_root_change]
  exact allSet_setSourceRoot _ _
    (allSet_applyRemoves rc.removed _ f (allSet_applyAdds root_id rc.added _ f h))

theorem allSet_rootsChangedLoop (rcs : List (SourceRootId × RootChange)) :
    ∀ (db : RootDatabase) (f : FileId),
      allSet db f → allSet (rootsChangedLoop db rcs) f := by
  induction rcs with
  | nil => intro db f h; exact h
  | cons rc rest ih =>
    intro db f h
    obtain ⟨root_id, root_change⟩ := rc
    simp only [rootsChangedLoop]
    exact ih _ f (allSet_apply_root_change root_id root_change h)

theorem allSet_filesChangedLoop (fcs : List (FileId × String)) :
    ∀ (db : RootDatabase) (f : FileId),
      allSet db f → allSet (filesChangedLoop db fcs) f := by
  induction fcs with
  | nil => intro db f h; exact h
  | cons fc rest ih =>
    intro db f h
    obtain ⟨file_id, text⟩ := fc
    simp only [filesChangedLoop]
    exact ih _ f (allSet_setFileText _ _ h)

theorem allSet_newRootsLoop (roots : List (SourceRootId × Bool)) :
    ∀ (db : RootDatabase) (acc : List SourceRootId) (f : FileId),
      allSet db f → allSet (newRootsLoop db roots acc).1 f := by
  induction roots with
  | nil => intro db acc f h; exact h
  | cons r rest ih =>
    intro db acc f h
    obtain ⟨root_id, is_local⟩ := r
    simp only [newRootsLoop]
    exact ih _ _ f (allSet_setSourceRoot _ _ h)

theorem allSet_librariesLoop (libs : List LibraryData) :
    ∀ (db : RootDatabase) (acc : List SourceRootId) (f : FileId),
      allSet db f → allSet (librariesLoop db libs acc).1 f := by
  induction libs with
  | nil => intro db acc f h; exact h
  | cons library rest ih =>
    intro db acc f h
    simp only [librariesLoop]
    exact ih _ _ f (allSet_apply_root_change _ _
      (allSet_setLibrarySymbols _ _ (allSet_setSourceRoot _ _ h)))

theorem allSet_setLocalRoots {db : RootDatabase} {f : FileId} (roots : List SourceRootId)
    (h : allSet db f) : allSet (setLocalRoots db roots) f := h

theorem allSet_setLibraryRoots {db : RootDatabase} {f : FileId} (roots : List SourceRootId)
    (h : allSet db f) : allSet (setLibraryRoots db roots) f := h

theorem allSet_setCrateGraph {db : RootDatabase} {f : FileId} (g : CrateGraph)
    (h : allSet db f) : allSet (setCrateGraph db g) f := h

theorem allSet_apply_change (change : AnalysisChange) (db : RootDatabase) (f : FileId)
    (h : allSet db f) : allSet (apply_change db change) f := by
  unfold apply_change
  cases hcg : change.crate_graph with
  | none =>
    by_cases h2 : change.libraries_added.isEmpty <;>
      by_cases h1 : change.new_roots.isEmpty <;>
        simp only [h1, h2, if_true, if_false, Bool.false_eq_true, ite_true, ite_false] <;>
        first
          | exact allSet_filesChangedLoop _ _ f (allSet_rootsChangedLoop _ _ f h)
          | exact allSet_filesChangedLoop _ _ f (allSet_rootsChangedLoop _ _ f
              (allSet_setLocalRoots _ (allSet_newRootsLoop _ _ _ f h)))
          | exact allSet_setLibraryRoots _ (allSet_librariesLoop _ _ _ f
              (allSet_filesChangedLoop _ _ f (allSet_rootsChangedLoop _ _ f h)))
          | exact allSet_setLibraryRoots _ (allSet_librariesLoop _ _ _ f
              (allSet_filesChangedLoop _ _ f (allSet_rootsChangedLoop _ _ f
                (allSet_setLocalRoots _ (allSet_newRootsLoop _ _ _ f h)))))
  | some g =>
    by_cases h2 : change.libraries_added.isEmpty <;>
      by_cases h1 : change.new_roots.isEmpty <;>
        simp only [h1, h2, if_true, if_false, Bool.false_eq_true, ite_true, ite_false] <;>
        first
          | exact allSet_setCrateGraph _ (allSet_filesChangedLoop _ _ f
              (allSet_rootsChangedLoop _ _ f h))
          | exact allSet_setCrateGraph _ (allSet_filesChangedLoop _ _ f
              (allSet_rootsChangedLoop _ _ f
                (allSet_setLocalRoots _ (allSet_newRootsLoop _ _ _ f h))))
          | exact allSet_setCrateGraph _ (allSet_setLibraryRoots _ (allSet_librariesLoop _ _ _ f
              (allSet_filesChangedLoop _ _ f (allSet_rootsChangedLoop _ _ f h))))
          | exact allSet_setCrateGraph _ (allSet_setLibraryRoots _ (allSet_librariesLoop _ _ _ f
              (allSet_filesChangedLoop _ _ f (allSet_rootsChangedLoop _ _ f
                (allSet_setLocalRoots _ (allSet_newRootsLoop _ _ _ f h))))))

theorem fileInputsEq_refl (db : RootDatabase) (f : FileId) : fileInputsEq db db f :=
  ⟨rfl, rfl, rfl⟩

theorem fileInputsEq_trans {a b c : RootDatabase} {f : FileId}
    (h1 : fileInputsEq a b f) (h2 : fileInputsEq b c f) : fileInputsEq a c f :=
  ⟨h2.1.trans h1.1, h2.2.1.trans h1.2.1, h2.2.2.trans h1.2.2⟩

theorem frame_setFileText {f fid : FileId} (db : RootDatabase) (t : String) (hne : f ≠ fid) :
    fileInputsEq db (setFileText db fid t) f := by
  refine ⟨?_, rfl, rfl⟩
  simp [setFileText, hne]

theorem frame_setFileRelativePath {f fid : FileId} (db : RootDatabase) (p : RelPath)
    (hne : f ≠ fid) : fileInputsEq db (setFileRelativePath db fid p) f := by
  refine ⟨rfl, ?_, rfl⟩
  simp [setFileRelativePath, hne]

theorem frame_setFileSourceRoot {f fid : FileId} (db : RootDatabase) (r : SourceRootId)
    (hne : f ≠ fid) : fileInputsEq db (setFileSourceRoot db fid r) f := by
  refine ⟨rfl, rfl, ?_⟩
  simp [setFileSourceRoot, hne]

theorem frame_applyAdds (root_id : SourceRootId) (adds : List AddFile) :
    ∀ (p : RootDatabase × SourceRoot) (f : FileId),
      f ∉ adds.map AddFile.file_id → fileInputsEq p.1 (applyAdds root_id p adds).1 f := by
  induction adds with
  | nil => intro p f _; exact fileInputsEq_refl _ _
  | cons af rest ih =>
    intro p f hmem
    obtain ⟨db, sr⟩ := p
    simp only [List.map_cons, List.mem_cons, not_or] at hmem
    obtain ⟨hne, hrest⟩ := hmem
    simp only [applyAdds]
    refine fileInputsEq_trans ?_ (ih _ f hrest)
    exact fileInputsEq_trans (frame_setFileText db af.text hne)
      (fileInputsEq_trans (frame_setFileRelativePath _ af.path hne)
        (frame_setFileSourceRoot _ root_id hne))

theorem frame_applyRemoves (rems : List RemoveFile) :
    ∀ (p : RootDatabase × SourceRoot) (f : FileId),
      f ∉ rems.map RemoveFile.file_id → fileInputsEq p.1 (applyRemoves p rems).1 f := by
  induction rems with
  | nil => intro p f _; exact fileInputsEq_refl _ _
  | cons rf rest ih =>
    intro p f hmem
    obtain ⟨db, sr⟩ := p
    simp only [List.map_cons, List.mem_cons, not_or] at hmem
    obtain ⟨hne, hrest⟩ := hmem
    simp only [applyRemoves]
    exact fileInputsEq_trans (frame_setFileText db "" hne) (ih _ f hrest)

theorem frame_apply_root_change {f : FileId} (db : RootDatabase) (root_id : SourceRootId)
    (rc : RootChange) (ha : f ∉ rc.added.map AddFile.file_id)
    (hr : f ∉ rc.removed.map RemoveFile.file_id) :
    fileInputsEq db (apply_root_change db root_id rc) f := by
  simp only [apply_root_change]
  refine fileInputsEq_trans ?_ ⟨rfl, rfl, rfl⟩
  exact fileInputsEq_trans (frame_applyAdds root_id rc.added _ f ha)
    (frame_applyRemoves rc.removed _ f hr)

theorem frame_rootsChangedLoop (rcs : List (SourceRootId × RootChange)) :
    ∀ (db : RootDatabase) (f : FileId),
      f ∉ rcs.flatMap (fun p => p.2.added.map AddFile.file_id) →
      f ∉ rcs.flatMap (fun p => p.2.removed.map RemoveFile.file_id) →
      fileInputsEq db (rootsChangedLoop db rcs) f := by
  induction rcs with
  | nil => intro db f _ _; exact fileInputsEq_refl _ _
  | cons rc rest ih =>
    intro db f ha hr
    obtain ⟨root_id, root_change⟩ := rc
    simp only [List.flatMap_cons, List.mem_append, not_or] at ha hr
    simp only [rootsChangedLoop]
    exact fileInputsEq_trans (frame_apply_root_change db root_id root_change ha.1 hr.1)
      (ih _ f ha.2 hr.2)

theorem frame_filesChangedLoop (fcs : List (FileId × String)) :
    ∀ (db : RootDatabase) (f : FileId),
      f ∉ fcs.map Prod.fst → fileInputsEq db (filesChangedLoop db fcs) f := by
  induction fcs with
  | nil => intro db f _; exact fileInputsEq_refl _ _
  | cons fc rest ih =>
    intro db f hmem
    obtain ⟨file_id, text⟩ := fc
    simp only [List.map_cons, List.mem_cons, not_or] at hmem
    simp only [filesChangedLoop]
    exact fileInputsEq_trans (frame_setFileText db text hmem.1) (ih _ f hmem.2)

theorem frame_newRootsLoop (roots : List (SourceRootId × Bool)) :
    ∀ (db : RootDatabase) (acc : List SourceRootId) (f : FileId),
      fileInputsEq db (newRootsLoop db roots acc).1 f := by
  induction roots with
  | nil => intro db acc f; exact fileInputsEq_refl _ _
  | cons r rest ih =>
    intro db acc f
    obtain ⟨root_id, is_local⟩ := r
    simp only [newRootsLoop]
    exact fileInputsEq_trans ⟨rfl, rfl, rfl⟩ (ih _ _ f)

theorem frame_librariesLoop (libs : List LibraryData) :
    ∀ (db : RootDatabase) (acc : List SourceRootId) (f : FileId),
      f ∉ libs.flatMap (fun l => l.root_change.added.map AddFile.file_id) →
      f ∉ libs.flatMap (fun l => l.root_change.removed.map RemoveFile.file_id) →
      fileInputsEq db (librariesLoop db libs acc).1 f := by
  induction libs with
  | nil => intro db acc f _ _; exact fileInputsEq_refl _ _
  | cons library rest ih =>
    intro db acc f ha hr
    simp only [List.flatMap_cons, List.mem_append, not_or] at ha hr
    simp only [librariesLoop]
    refine fileInputsEq_trans ?_ (ih _ _ f ha.2 hr.2)
    exact fileInputsEq_trans ⟨rfl, rfl, rfl⟩
      (fileInputsEq_trans ⟨rfl, rfl, rfl⟩
        (frame_apply_root_change _ _ _ ha.1 hr.1))

theorem frame_apply_change (change : AnalysisChange) (db : RootDatabase) (f : FileId)
    (ha : f ∉ addedIds change) (hr : f ∉ removedIds change) (hc : f ∉ changedIds change) :
    fileInputsEq db (apply_change db change) f := by
  simp only [addedIds, List.mem_append, not_or] at ha
  simp only [removedIds, List.mem_append, not_or] at hr
  have hstage1 : ∀ db0 : RootDatabase,
      fileInputsEq db0
        (if change.new_roots.isEmpty then db0
         else
           let p := newRootsLoop db0 change.new_roots db0.localRoots
           setLocalRoots p.1 p.2) f := by
    intro db0
    by_cases h1 : change.new_roots.isEmpty
    · simp only [h1, ite_true]; exact fileInputsEq_refl _ _
    · simp only [h1, ite_false, Bool.false_eq_true]
      exact fileInputsEq_trans (frame_newRootsLoop change.new_roots db0 _ f) ⟨rfl, rfl, rfl⟩
  have hstage4 : ∀ db0 : RootDatabase,
      fileInputsEq db0
        (if change.libraries_added.isEmpty then db0
         else
           let p := librariesLoop db0 change.libraries_added db0.libraryRoots
           setLibraryRoots p.1 p.2) f := by
    intro db0
    by_cases h2 : change.libraries_added.isEmpty
    · simp only [h2, ite_true]; exact fileInputsEq_refl _ _
    · simp only [h2, ite_false, Bool.false_eq_true]
      exact fileInputsEq_trans
        (frame_librariesLoop change.libraries_added db0 _ f ha.2 hr.2) ⟨rfl, rfl, rfl⟩
  have hstage5 : ∀ db0 : RootDatabase,
      fileInputsEq db0
        (match change.crate_graph with
         | some crate_graph => setCrateGraph db0 crate_graph
         | none => db0) f := by
    intro db0
    cases change.crate_graph
    · exact fileInputsEq_refl _ _
    · exact ⟨rfl, rfl, rfl⟩
  unfold apply_change
  refine fileInputsEq_trans (hstage1 db) (fileInputsEq_trans
    (frame_rootsChangedLoop change.roots_changed _ f ha.1 hr.1)
    (fileInputsEq_trans (frame_filesChangedLoop change.files_changed _ f hc)
      (fileInputsEq_trans (hstage4 _) (hstage5 _))))

theorem allSet_addFile (db : RootDatabase) (root_id : SourceRootId)
    (af : AddFile) :
    allSet (setFileSourceRoot (setFileRelativePath (setFileText db af.file_id af.text)
      af.file_id af.path) af.file_id root_id) af.file_id := by
  refine ⟨?_, ?_, ?_⟩ <;>
    simp [setFileText, setFileRelativePath, setFileSourceRoot]

theorem allSet_applyAdds_added (root_id : SourceRootId) (adds : List AddFile) :
    ∀ (p : RootDatabase × SourceRoot) (f : FileId),
      f ∈ adds.map AddFile.file_id → allSet (applyAdds root_id p adds).1 f := by
  induction adds with
  | nil => intro p f h; simp at h
  | cons af rest ih =>
    intro p f hmem
    obtain ⟨db, sr⟩ := p
    simp only [List.map_cons, List.mem_cons] at hmem
    simp only [applyAdds]
    rcases hmem with heq | hrest
    · subst heq
      exact allSet_applyAdds root_id rest _ _ (allSet_addFile db root_id af)
    · exact ih _ f hrest

theorem allSet_apply_root_change_added {f : FileId} (db : RootDatabase)
    (root_id : SourceRootId) (rc : RootChange) (hmem : f ∈ rc.added.map AddFile.file_id) :
    allSet (apply_root_change db root_id rc) f := by
  simp only [apply_root_change]
  exact allSet_setSourceRoot _ _
    (allSet_applyRemoves rc.removed _ f (allSet_applyAdds_added root_id rc.added _ f hmem))

theorem allSet_rootsChangedLoop_added (rcs : List (SourceRootId × RootChange)) :
    ∀ (db : RootDatabase) (f : FileId),
      f ∈ rcs.flatMap (fun p => p.2.added.map AddFile.file_id) →
      allSet (rootsChangedLoop db rcs) f := by
  induction rcs with
  | nil => intro db f h; simp at h
  | cons rc rest ih =>
    intro db f hmem
    obtain ⟨root_id, root_change⟩ := rc
    simp only [List.flatMap_cons, List.mem_append] at hmem
    simp only [rootsChangedLoop]
    rcases hmem with hhead | hrest
    · exact allSet_rootsChangedLoop rest _ f (allSet_apply_root_change_added db root_id root_change hhead)
    · exact ih _ f hrest

theorem allSet_librariesLoop_added (libs : List LibraryData) :
    ∀ (db : RootDatabase) (acc : List SourceRootId) (f : FileId),
      f ∈ libs.flatMap (fun l => l.root_change.added.map AddFile.file_id) →
      allSet (librariesLoop db libs acc).1 f := by
  induction libs with
  | nil => intro db acc f h; simp at h
  | cons library rest ih =>
    intro db acc f hmem
    simp only [List.flatMap_cons, List.mem_append] at hmem
    simp only [librariesLoop]
    rcases hmem with hhead | hrest
    · exact allSet_librariesLoop rest _ _ f (allSet_apply_root_change_added _ _ _ hhead)
    · exact ih _ _ f hrest

theorem allSet_apply_change_added (change : AnalysisChange) (db : RootDatabase) (f : FileId)
    (hmem : f ∈ addedIds change) : allSet (apply_change db change) f := by
  simp only [addedIds, List.mem_append] at hmem
  unfold apply_change
  rcases hmem with hroots | hlibs
  · have h2 : allSet (filesChangedLoop
        (rootsChangedLoop
          (if change.new_roots.isEmpty then db
           else
             let p := newRootsLoop db change.new_roots db.localRoots
             setLocalRoots p.1 p.2)
          change.roots_changed) change.files_changed) f :=
      allSet_filesChangedLoop _ _ f (allSet_rootsChangedLoop_added _ _ f hroots)
    by_cases hl : change.libraries_added.isEmpty <;>
      simp only [hl, ite_true, ite_false, Bool.false_eq_true] <;>
      cases change.crate_graph <;>
      first
        | exact h2
        | exact allSet_setCrateGraph _ h2
        | exact allSet_setLibraryRoots _ (allSet_librariesLoop _ _ _ f h2)
        | exact allSet_setCrateGraph _ (allSet_setLibraryRoots _ (allSet_librariesLoop _ _ _ f h2))
  · have hne : ¬ change.libraries_added.isEmpty := by
      intro hempty
      rw [List.isEmpty_iff] at hempty
      rw [hempty] at hlibs
      simp at hlibs
    simp only [hne, ite_false, Bool.false_eq_true]
    have h4 : ∀ db0 : RootDatabase,
        allSet (librariesLoop db0 change.libraries_added db0.libraryRoots).1 f :=
      fun db0 => allSet_librariesLoop_added _ _ _ f hlibs
    cases change.crate_graph
    · exact allSet_setLibraryRoots _ (h4 _)
    · exact allSet_setCrateGraph _ (allSet_setLibraryRoots _ (h4 _))

theorem consistentAt_of_fileInputsEq {db db2 : RootDatabase} {f : FileId}
    (he : fileInputsEq db db2 f) (h : consistentAt db f) : consistentAt db2 f := by
  obtain ⟨e1, e2, e3⟩ := he
  rcases h with ⟨h1, h2, h3⟩ | ⟨h1, h2, h3⟩
  · left
    exact ⟨by rw [e1]; exact h1, by rw [e2]; exact h2, by rw [e3]; exact h3⟩
  · right
    exact ⟨by rw [e1]; exact h1, by rw [e2]; exact h2, by rw [e3]; exact h3⟩

/-- One well-formed change preserves the all-or-none invariant. -/
theorem consistent_step (db : RootDatabase) (change : AnalysisChange)
    (hdb : filesConsistent db) (hwf : wellFormedFor db change) :
    filesConsistent (apply_change db change) := by
  intro f
  by_cases htouch : f ∈ removedIds change ++ changedIds change
  · left
    exact allSet_apply_change change db f (hwf f htouch)
  · simp only [List.mem_append, not_or] at htouch
    by_cases hadd : f ∈ addedIds change
    · left
      exact allSet_apply_change_added change db f hadd
    · exact consistentAt_of_fileInputsEq
        (frame_apply_change change db f hadd htouch.1 htouch.2) (hdb f)

/-- The default database has no file inputs set. -/
theorem filesConsistent_default : filesConsistent RootDatabase.default := by
  intro f
  right
  exact ⟨rfl, rfl, rfl⟩

theorem applyChanges_consistent (cs : List AnalysisChange) :
    ∀ db : RootDatabase, filesConsistent db → WFSeq db cs →
      filesConsistent (applyChanges db cs) := by
  induction cs with
  | nil => intro db hdb _; exact hdb
  | cons c rest ih =>
    intro db hdb hwf
    exact ih _ (consistent_step db c hdb hwf.1) hwf.2

/-- C4 (amended): after any sequence of apply_change calls from the
fresh state in which every removed or text-rewritten file was previously
added — including sequences whose root changes remove files — each
FileId has its file text, relative path and source-root inputs all set
or all absent.  Removal does not clear the slots: it resets the text to
the default value and leaves path and root in place, so removed files
stay on the all-set side. -/
theorem apply_changes_consistent (cs : List AnalysisChange)
    (hwf : WFSeq RootDatabase.default cs) :
    filesConsistent (applyChanges RootDatabase.default cs) :=
  applyChanges_consistent cs RootDatabase.default filesConsistent_default hwf

/-- Witness: declare a root, add file 1, then remove it again; the
invariant holds at file 1 afterwards. -/
theorem apply_changes_consistent_witness :
    consistentAt (applyChanges RootDatabase.default [changeAddRoot, changeRemoveFile]) 1 :=
  apply_changes_consistent [changeAddRoot, changeRemoveFile]
    ⟨by decide, by decide, trivial⟩ 1

/-- C4 counterexample: a single change set whose files_changed rewrites
the text of the never-added file 0 leaves file 0 with its text input set
but its relative-path and source-root inputs absent, so the claim read
over arbitrary change sets fails. -/
theorem inconsistent_after_unknown_text :
    ¬ consistentAt (applyChanges RootDatabase.default [changeUnknownText]) 0 := by
  decide

/-!
## C2: the limit of Query::search
-/

/-- The collection loop never discards a stream step before the limit
hits: its result extends the accumulator to a prefix of the full
accepted list. -/
theorem searchLoop_prefix (q : Query) (indices : List SymbolIndex) :
    ∀ (keys : List (List Char)) (res : List (FileId × FileSymbol)),
      ∃ t, res ++ allAccepted q indices keys = searchLoop q indices keys res ++ t := by
  intro keys
  induction keys with
  | nil =>
    intro res
    exact ⟨[], by simp [allAccepted, searchLoop]⟩
  | cons key rest ih =>
    intro res
    by_cases hl : res.length ≥ q.limit
    · refine ⟨allAccepted q indices (key :: rest), ?_⟩
      simp only [searchLoop, if_pos hl]
    · obtain ⟨t, ht⟩ := ih (res ++ acceptedFor q indices key)
      refine ⟨t, ?_⟩
      simp only [searchLoop, if_neg hl]
      rw [← ht]
      simp [allAccepted, List.append_assoc]

/-- When every stream step contributes at most one accepted result, the
limit check at the top of the loop keeps the result within the limit. -/
theorem searchLoop_length_le (q : Query) (indices : List SymbolIndex) :
    ∀ (keys : List (List Char)) (res : List (FileId × FileSymbol)),
      (∀ k ∈ keys, (acceptedFor q indices k).length ≤ 1) →
      res.length ≤ q.limit →
      (searchLoop q indices keys res).length ≤ q.limit := by
  intro keys
  induction keys with
  | nil =>
    intro res _ hres
    simpa [searchLoop] using hres
  | cons key rest ih =>
    intro res hk hres
    simp only [searchLoop]
    by_cases hl : res.length ≥ q.limit
    · rw [if_pos hl]
      exact hres
    · rw [if_neg hl]
      refine ih _ (fun k hk2 => hk k (List.mem_cons_of_mem _ hk2)) ?_
      have h1 : (acceptedFor q indices key).length ≤ 1 := hk key (List.mem_cons_self _ _)
      have h2 : res.length < q.limit := lt_of_not_ge hl
      simp only [List.length_append]
      omega

/-- C2 (amended): Query::search checks the limit only at stream-step
(key) boundaries.  Its result is always a prefix of the full accepted
list in union order — in particular an exact query returns a prefix of
the accepted entries whose name equals the query, case-sensitively —
and its length is bounded by the limit whenever every stream step
contributes at most one accepted result; a step carrying the same
lowercased key in several indices can push the length past the limit. -/
theorem search_limit (q : Query) (indices : List SymbolIndex) :
    (∃ t, allAccepted q indices (unionKeys q.lowercased indices) = q.search indices ++ t) ∧
    ((∀ k ∈ unionKeys q.lowercased indices, (acceptedFor q indices k).length ≤ 1) →
      (q.search indices).length ≤ q.limit) := by
  constructor
  · obtain ⟨t, ht⟩ := searchLoop_prefix q indices (unionKeys q.lowercased indices) []
    exact ⟨t, by simpa [Query.search] using ht⟩
  · intro hk
    exact searchLoop_length_le q indices _ [] hk (by simp)

/-- Witness for the amended limit theorem on a query whose one matched
key holds a single accepted entry. -/
theorem search_limit_witness :
    (∀ k ∈ unionKeys queryFoo.lowercased [idxFoo],
      (acceptedFor queryFoo [idxFoo] k).length ≤ 1) ∧
    (queryFoo.search [idxFoo]).length ≤ queryFoo.limit :=
  ⟨by decide, (search_limit queryFoo [idxFoo]).2 (by decide)⟩

/-- C2 counterexample: two single-file indices each declaring fn foo;
the exact query for foo with limit 1 collects both entries of the one
stream step and returns two results, exceeding the limit. -/
theorem search_exceeds_limit :
    queryFooLimit1.limit = 1 ∧ (queryFooLimit1.search [idxFn1, idxFn2]).length = 2 :=
  ⟨rfl, by decide⟩

/-!
## C3: ordering and deduplication of the symbol index
-/

theorem strLt_irrefl : ∀ a : List Char, strLt a a = false := by
  intro a
  induction a with
  | nil => rfl
  | cons x xs ih =>
    simp only [strLt]
    rw [if_neg (lt_irrefl x), if_neg (lt_irrefl x)]
    exact ih

theorem strLt_asymm : ∀ a b : List Char, strLt a b = true → strLt b a = false := by
  intro a
  induction a with
  | nil =>
    intro b h
    cases b with
    | nil => simp [strLt] at h
    | cons y ys => rfl
  | cons x xs ih =>
    intro b h
    cases b with
    | nil => simp [strLt] at h
    | cons y ys =>
      simp only [strLt] at h ⊢
      by_cases hxy : x < y
      · rw [if_neg (asymm hxy), if_pos hxy]
      · by_cases hyx : y < x
        · rw [if_neg hxy, if_pos hyx] at h
          cases h
        · rw [if_neg hxy, if_neg hyx] at h
          rw [if_neg hyx, if_neg hxy]
          exact ih ys h

theorem strLt_trans : ∀ a b c : List Char,
    strLt a b = true → strLt b c = true → strLt a c = true := by
  intro a
  induction a with
  | nil =>
    intro b c h1 h2
    cases b with
    | nil => simp [strLt] at h1
    | cons y ys =>
      cases c with
      | nil => simp [strLt] at h2
      | cons z zs => rfl
  | cons x xs ih =>
    intro b c h1 h2
    cases b with
    | nil => simp [strLt] at h1
    | cons y ys =>
      cases c with
      | nil => simp [strLt] at h2
      | cons z zs =>
        simp only [strLt] at h1 h2 ⊢
        by_cases hxy : x < y
        · by_cases hyz : y < z
          · rw [if_pos (lt_trans hxy hyz)]
          · rw [if_neg hyz] at h2
            by_cases hzy : z < y
            · rw [if_pos hzy] at h2
              cases h2
            · have hyzeq : y = z := le_antisymm (not_lt.mp hzy) (not_lt.mp hyz)
              rw [if_pos (hyzeq ▸ hxy)]
        · rw [if_neg hxy] at h1
          by_cases hyx : y < x
          · rw [if_pos hyx] at h1
            cases h1
          · rw [if_neg hyx] at h1
            have hxyeq : x = y := le_antisymm (not_lt.mp hyx) (not_lt.mp hxy)
            by_cases hyz : y < z
            · rw [if_pos (hxyeq ▸ hyz)]
            · rw [if_neg hyz] at h2
              by_cases hzy : z < y
              · rw [if_pos hzy] at h2
                cases h2
              · rw [if_neg hzy] at h2
                have hyzeq : y = z := le_antisymm (not_lt.mp hzy) (not_lt.mp hyz)
                have hxz : ¬ x < z := by rw [hxyeq, hyzeq]; exact lt_irrefl z
                have hzx : ¬ z < x := by rw [hxyeq, hyzeq]; exact lt_irrefl z
                rw [if_neg hxz, if_neg hzx]
                exact ih ys zs h1 h2

theorem strLt_eq_of_not : ∀ a b : List Char,
    strLt a b = false → strLt b a = false → a = b := by
  intro a
  induction a with
  | nil =>
    intro b h1 _
    cases b with
    | nil => rfl
    | cons y ys => simp [strLt] at h1
  | cons x xs ih =>
    intro b h1 h2
    cases b with
    | nil => simp [strLt] at h2
    | cons y ys =>
      simp only [strLt] at h1 h2
      by_cases hxy : x < y
      · rw [if_pos hxy] at h1
        cases h1
      · by_cases hyx : y < x
        · rw [if_pos hyx] at h2
          cases h2
        · rw [if_neg hxy, if_neg hyx] at h1
          rw [if_neg hyx, if_neg hxy] at h2
          have hxyeq : x = y := le_antisymm (not_lt.mp hyx) (not_lt.mp hxy)
          rw [hxyeq, ih ys h1 h2]

theorem strLt_of_strLe_of_ne {a b : List Char} (h : strLe a b = true) (hne : a ≠ b) :
    strLt a b = true := by
  unfold strLe at h
  rw [Bool.not_eq_true'] at h
  cases hab : strLt a b with
  | true => rfl
  | false => exact absurd (strLt_eq_of_not a b hab h) hne

theorem strLe_total (a b : List Char) : strLe a b = true ∨ strLe b a = true := by
  unfold strLe
  cases h : strLt b a with
  | false => left; rfl
  | true =>
    right
    rw [strLt_asymm b a h]
    rfl

theorem strLe_trans {a b c : List Char} (h1 : strLe a b = true) (h2 : strLe b c = true) :
    strLe a c = true := by
  unfold strLe at h1 h2 ⊢
  rw [Bool.not_eq_true'] at h1 h2 ⊢
  cases hca : strLt c a with
  | false => rfl
  | true =>
    cases hbc : strLt b c with
    | true =>
      rw [strLt_trans b c a hbc hca] at h1
      cases h1
    | false =>
      rw [strLt_eq_of_not b c hbc h2] at h1
      rw [hca] at h1
      cases h1

instance : IsTotal (List Char × (FileId × FileSymbol)) entryLe :=
  ⟨fun a b => strLe_total a.1 b.1⟩

instance : IsTrans (List Char × (FileId × FileSymbol)) entryLe :=
  ⟨fun _ _ _ h1 h2 => strLe_trans h1 h2⟩

/-- Members of the dedup tail come from the input. -/
theorem dedupTail_subset : ∀ (l : List (List Char × (FileId × FileSymbol))) (k : List Char),
    ∀ e ∈ dedupTail k l, e ∈ l := by
  intro l
  induction l with
  | nil => intro k e he; simp [dedupTail] at he
  | cons b rest ih =>
    intro k e he
    simp only [dedupTail] at he
    by_cases hbk : b.1 = k
    · rw [if_pos hbk] at he
      exact List.mem_cons_of_mem _ (ih k e he)
    · rw [if_neg hbk] at he
      rcases List.mem_cons.mp he with heb | het
      · rw [heb]; exact List.mem_cons_self _ _
      · exact List.mem_cons_of_mem _ (ih b.1 e het)

/-- On a sorted tail bounded below by the kept key, deduplication yields
a strictly increasing chain whose head is strictly above the kept key. -/
theorem dedupTail_chain : ∀ (l : List (List Char × (FileId × FileSymbol))) (k : List Char),
    List.Pairwise entryLe l → (∀ x ∈ l, strLe k x.1 = true) →
    (∀ h ∈ (dedupTail k l).head?, strLt k h.1 = true) ∧
    List.Chain' (fun a b => strLt a.1 b.1 = true) (dedupTail k l) := by
  intro l
  induction l with
  | nil =>
    intro k _ _
    constructor
    · intro h hh; simp [dedupTail] at hh
    · simp [dedupTail]
  | cons b rest ih =>
    intro k hp hb
    have hpr : List.Pairwise entryLe rest := (List.pairwise_cons.mp hp).2
    have hble : ∀ x ∈ rest, strLe b.1 x.1 = true := (List.pairwise_cons.mp hp).1
    simp only [dedupTail]
    by_cases hbk : b.1 = k
    · rw [if_pos hbk]
      exact ih k hpr (fun x hx => hb x (List.mem_cons_of_mem _ hx))
    · rw [if_neg hbk]
      have hkb : strLt k b.1 = true :=
        strLt_of_strLe_of_ne (hb b (List.mem_cons_self _ _)) (fun he => hbk he.symm)
      obtain ⟨ihead, ichain⟩ := ih b.1 hpr hble
      constructor
      · intro h hh
        simp only [List.head?_cons, Option.mem_def, Option.some.injEq] at hh
        rw [← hh]
        exact hkb
      · rw [List.chain'_cons']
        exact ⟨ihead, ichain⟩

/-- Every entry surviving deduplication is the first entry with its key
in the sorted input. -/
theorem dedupTail_find : ∀ (l : List (List Char × (FileId × FileSymbol))) (k : List Char),
    List.Pairwise entryLe l → (∀ x ∈ l, strLe k x.1 = true) →
    ∀ e ∈ dedupTail k l, strLt k e.1 = true ∧
      l.find? (fun x => decide (x.1 = e.1)) = some e := by
  intro l
  induction l with
  | nil => intro k _ _ e he; simp [dedupTail] at he
  | cons b rest ih =>
    intro k hp hb e he
    have hpr : List.Pairwise entryLe rest := (List.pairwise_cons.mp hp).2
    have hble : ∀ x ∈ rest, strLe b.1 x.1 = true := (List.pairwise_cons.mp hp).1
    simp only [dedupTail] at he
    by_cases hbk : b.1 = k
    · rw [if_pos hbk] at he
      obtain ⟨hlt, hfind⟩ := ih k hpr (fun x hx => hb x (List.mem_cons_of_mem _ hx)) e he
      refine ⟨hlt, ?_⟩
      rw [List.find?_cons]
      have hne : decide (b.1 = e.1) = false := by
        rw [decide_eq_false_iff_not]
        intro hbe
        rw [hbk] at hbe
        rw [← hbe, strLt_irrefl] at hlt
        cases hlt
      rw [hne]
      exact hfind
    · rw [if_neg hbk] at he
      have hkb : strLt k b.1 = true :=
        strLt_of_strLe_of_ne (hb b (List.mem_cons_self _ _)) (fun he2 => hbk he2.symm)
      rcases List.mem_cons.mp he with heb | het
      · subst heb
        refine ⟨hkb, ?_⟩
        rw [List.find?_cons]
        have hself : decide (e.1 = e.1) = true := by simp
        rw [hself]
      · obtain ⟨hlt2, hfind2⟩ := ih b.1 hpr hble e het
        refine ⟨strLt_trans _ _ _ hkb hlt2, ?_⟩
        rw [List.find?_cons]
        have hne : decide (b.1 = e.1) = false := by
          rw [decide_eq_false_iff_not]
          intro hbe
          rw [← hbe, strLt_irrefl] at hlt2
          cases hlt2
        rw [hne]
        exact hfind2

/-- No key is lost by deduplication. -/
theorem dedupTail_complete : ∀ (l : List (List Char × (FileId × FileSymbol))) (k : List Char),
    ∀ kv ∈ l, kv.1 = k ∨ ∃ e ∈ dedupTail k l, e.1 = kv.1 := by
  intro l
  induction l with
  | nil => intro k kv hkv; simp at hkv
  | cons b rest ih =>
    intro k kv hkv
    simp only [dedupTail]
    rcases List.mem_cons.mp hkv with heb | het
    · subst heb
      by_cases hbk : kv.1 = k
      · left; exact hbk
      · right
        rw [if_neg hbk]
        exact ⟨kv, List.mem_cons_self _ _, rfl⟩
    · by_cases hbk : b.1 = k
      · rw [if_pos hbk]
        exact ih k kv het
      · rw [if_neg hbk]
        rcases ih b.1 kv het with heq | ⟨e, he, heq⟩
        · right
          exact ⟨b, List.mem_cons_self _ _, heq.symm⟩
        · right
          exact ⟨e, List.mem_cons_of_mem _ he, heq⟩

theorem dedupByKey_subset (s : List (List Char × (FileId × FileSymbol))) :
    ∀ e ∈ dedupByKey s, e ∈ s := by
  cases s with
  | nil => intro e he; simp [dedupByKey] at he
  | cons a rest =>
    intro e he
    simp only [dedupByKey] at he
    rcases List.mem_cons.mp he with hea | het
    · rw [hea]; exact List.mem_cons_self _ _
    · exact List.mem_cons_of_mem _ (dedupTail_subset rest a.1 e het)

theorem dedupByKey_chain (s : List (List Char × (FileId × FileSymbol)))
    (hp : List.Pairwise entryLe s) :
    List.Chain' (fun a b => strLt a.1 b.1 = true) (dedupByKey s) := by
  cases s with
  | nil => simp [dedupByKey]
  | cons a rest =>
    simp only [dedupByKey]
    rw [List.chain'_cons']
    exact dedupTail_chain rest a.1 (List.pairwise_cons.mp hp).2 (List.pairwise_cons.mp hp).1

theorem dedupByKey_find (s : List (List Char × (FileId × FileSymbol)))
    (hp : List.Pairwise entryLe s) :
    ∀ e ∈ dedupByKey s, s.find? (fun x => decide (x.1 = e.1)) = some e := by
  cases s with
  | nil => intro e he; simp [dedupByKey] at he
  | cons a rest =>
    intro e he
    simp only [dedupByKey] at he
    rcases List.mem_cons.mp he with hea | het
    · subst hea
      rw [List.find?_cons]
      have hself : decide (e.1 = e.1) = true := by simp
      rw [hself]
    · obtain ⟨hlt, hfind⟩ := dedupTail_find rest a.1 (List.pairwise_cons.mp hp).2
        (List.pairwise_cons.mp hp).1 e het
      rw [List.find?_cons]
      have hne : decide (a.1 = e.1) = false := by
        rw [decide_eq_false_iff_not]
        intro hae
        rw [← hae, strLt_irrefl] at hlt
        cases hlt
      rw [hne]
      exact hfind

theorem dedupByKey_complete (s : List (List Char × (FileId × FileSymbol))) :
    ∀ kv ∈ s, ∃ e ∈ dedupByKey s, e.1 = kv.1 := by
  cases s with
  | nil => intro kv hkv; simp at hkv
  | cons a rest =>
    intro kv hkv
    simp only [dedupByKey]
    rcases List.mem_cons.mp hkv with hea | het
    · subst hea
      exact ⟨kv, List.mem_cons_self _ _, rfl⟩
    · rcases dedupTail_complete rest a.1 kv het with heq | ⟨e, he, heq⟩
      · exact ⟨a, List.mem_cons_self _ _, heq.symm⟩
      · exact ⟨e, List.mem_cons_of_mem _ he, heq⟩

/-- Every raw entry carries the lowercased name of its symbol as key. -/
theorem rawEntries_key (files : List (FileId × SourceFileNode)) :
    ∀ kv ∈ rawEntries files, kv.1 = lowerName kv.2 := by
  intro kv hkv
  simp only [rawEntries, List.mem_flatMap] at hkv
  obtain ⟨ff, _, hkv2⟩ := hkv
  simp only [List.mem_map] at hkv2
  obtain ⟨s, _, heq⟩ := hkv2
  rw [← heq]
  rfl

theorem sortedEntries_key (files : List (FileId × SourceFileNode)) :
    ∀ kv ∈ sortedEntries files, kv.1 = lowerName kv.2 :=
  fun kv hkv =>
    rawEntries_key files kv ((List.perm_insertionSort entryLe (rawEntries files)).subset hkv)

/-- Transfer of the key chain to the payloads, key equality holding on
every member. -/
theorem chain'_lowerName : ∀ (l : List (List Char × (FileId × FileSymbol))),
    (∀ kv ∈ l, kv.1 = lowerName kv.2) →
    List.Chain' (fun a b => strLt a.1 b.1 = true) l →
    List.Chain' (fun a b => strLt (lowerName a.2) (lowerName b.2) = true) l := by
  intro l
  induction l with
  | nil => intro _ _; simp
  | cons a rest ih =>
    intro hkey hch
    rw [List.chain'_cons'] at hch ⊢
    refine ⟨?_, ih (fun kv hkv => hkey kv (List.mem_cons_of_mem _ hkv)) hch.2⟩
    intro y hy
    have h1 := hch.1 y hy
    have hyl : y ∈ rest := List.mem_of_mem_head? hy
    rw [← hkey a (List.mem_cons_self _ _), ← hkey y (List.mem_cons_of_mem _ hyl)]
    exact h1

/-- C3: file_symbols enumerates its entries in strictly increasing order
of lowercased symbol name; every lowercased name of the sorted entry
list is still represented; and each surviving entry is the first entry
with its lowercased name among the sorted entries — adjacent duplicates
are collapsed with the first winning. -/
theorem for_files_sorted_dedup (files : List (FileId × SourceFileNode)) :
    List.Chain' (fun a b => strLt (lowerName a) (lowerName b) = true)
      (SymbolIndex.for_files files).symbols ∧
    (∀ kv ∈ sortedEntries files,
      ∃ y ∈ (SymbolIndex.for_files files).symbols, lowerName y = kv.1) ∧
    (∀ y ∈ (SymbolIndex.for_files files).symbols,
      (sortedEntries files).find? (fun x => decide (x.1 = lowerName y))
        = some (lowerName y, y)) := by
  have hp : List.Pairwise entryLe (sortedEntries files) :=
    List.sorted_insertionSort entryLe (rawEntries files)
  have hkey := sortedEntries_key files
  have hsymbols : (SymbolIndex.for_files files).symbols
      = (dedupByKey (sortedEntries files)).map (fun kv => kv.2) := rfl
  refine ⟨?_, ?_, ?_⟩
  · rw [hsymbols, List.chain'_map]
    exact chain'_lowerName _ (fun kv hkv => hkey kv (dedupByKey_subset _ kv hkv))
      (dedupByKey_chain _ hp)
  · intro kv hkv
    obtain ⟨e, he, heq⟩ := dedupByKey_complete (sortedEntries files) kv hkv
    refine ⟨e.2, ?_, ?_⟩
    · rw [hsymbols]
      exact List.mem_map_of_mem _ he
    · rw [← hkey e (dedupByKey_subset _ e he)]
      exact heq
  · intro y hy
    rw [hsymbols] at hy
    obtain ⟨e, he, heq⟩ := List.mem_map.mp hy
    have hek : e.1 = lowerName e.2 := hkey e (dedupByKey_subset _ e he)
    have hfind := dedupByKey_find _ hp e he
    subst heq
    rw [← hek]
    exact hfind

/-- Witness: a struct Foo and a fn foo collide on the lowercased name;
the first sorted entry wins and the index is strictly sorted. -/
theorem for_files_sorted_dedup_witness :
    ((1, fooStructSym) ∈ (SymbolIndex.for_files filesFixture).symbols) ∧
    (sortedEntries filesFixture).find?
        (fun x => decide (x.1 = lowerName (1, fooStructSym)))
      = some (lowerName (1, fooStructSym), (1, fooStructSym)) := by
  refine ⟨by decide, ?_⟩
  exact (for_files_sorted_dedup filesFixture).2.2 (1, fooStructSym) (by decide)

end RA
